import Mathlib

/-!
# Verification of the BenchApp → Google Calendar sync scripts

Shallow embedding of the reconciliation core of the hockey-calendar sync
scripts (Google Apps Script / JavaScript).  Two reconciler variants exist in
the repository:

* the "clean version" (`src/unnamed/part_001`, second document):
  `processEvents`, `needsUpdate` (5-minute tolerance, case-insensitive
  location), `createEvent` / `updateEvent`, `extractUIDFromDescription`;
* the "stable UID fix" (`src/unnamed/part_000`, first document):
  `processEventsWithStableUIDs` with a content-key migration path,
  `needsUpdate` (1-minute tolerance, case-sensitive location) and a
  two-regex `extractUIDFromDescription`.

JavaScript strings are modelled as Lean `String` (lists of characters);
JavaScript numbers holding epoch milliseconds as `Int`; `null`/`undefined`
for optional fields as `Option`.  JS regex character class `\s` and
`String.prototype.trim` are modelled over the ASCII whitespace characters
(space, tab, newline, carriage return, vertical tab, form feed); the inputs
manipulated by the scripts are ASCII.  `toLowerCase` is modelled as ASCII
lowering.  A JS `Date` is represented by its `getTime()` epoch value.
-/

namespace HockeySync

/-- JS whitespace (the ASCII part of regex `\s` / `String.prototype.trim`). -/
def jsWS (c : Char) : Bool :=
  c = ' ' || c = '\t' || c = '\n' || c = '\r' || c = '\x0b' || c = '\x0c'

/-- Drop leading and trailing whitespace from a character list
(JS `String.prototype.trim`). -/
def trimChars (l : List Char) : List Char :=
  ((l.dropWhile jsWS).reverse.dropWhile jsWS).reverse

/-- JS `s.trim()`. -/
def jsTrim (s : String) : String :=
  String.mk (trimChars s.data)

/-- JS `s.toLowerCase()` (ASCII scope). -/
def jsLower (s : String) : String :=
  String.mk (s.data.map Char.toLower)

/-- Does `sub` occur as a contiguous substring of `l`?  Used to state
hypotheses about descriptions that do or do not contain the marker text. -/
def hasSubstr (sub : List Char) : List Char → Bool
  | [] => sub.isEmpty
  | c :: rest => sub.isPrefixOf (c :: rest) || hasSubstr sub rest

/-- JS `s.replace(pat, '')` for a plain string pattern `pat`: removes the
first occurrence of `pat` (used for `title.replace(CONFIG.EVENT_PREFIX, '')`). -/
def replaceFirst (pat : List Char) : List Char → List Char
  | [] => []
  | c :: rest =>
    if pat.isPrefixOf (c :: rest) then (c :: rest).drop pat.length
    else c :: replaceFirst pat rest

/-- JS `ToInt32`: wrap an integer to the signed 32-bit range.  This is what
the bitwise operators (`<<`, `&`) apply to their operands and result. -/
def toInt32 (x : Int) : Int :=
  (x + 2 ^ 31) % 2 ^ 32 - 2 ^ 31

/-- One iteration of the rolling hash in `createStableUID`
(`src/unnamed/part_000` lines 22–27 / `part_001` lines 398–403):
`hash = ((hash << 5) - hash) + char; hash = hash & hash;`.
`hash << 5` is the 32-bit shift `toInt32 (hash * 32)`; the trailing
`hash & hash` truncates the float-exact sum back to 32 bits.
`charCodeAt` is the UTF-16 code unit, which for the BMP characters these
feeds contain equals the code point `c.toNat`. -/
def hashStep (h : Int) (c : Char) : Int :=
  toInt32 (toInt32 (h * 32) - h + (c.toNat : Int))

/-- A raw parsed feed event as `createStableUID` receives it: every field may
be absent (`undefined`/`null` in JS). -/
structure RawEvent where
  title : Option String
  startTime : Option Int
  endTime : Option Int
  location : Option String
  description : Option String
  originalUID : Option String
deriving DecidableEq

/-- `createStableUID(event)` (`src/unnamed/part_000` lines 12–32, identical in
`part_001` lines 391–407): trims title and location, serializes the start
time as its decimal epoch value (empty when absent), joins with `|`, folds
the rolling hash over the characters, and renders
`benchapp-stable-` + `Math.abs(hash)` in decimal. -/
def createStableUID (e : RawEvent) : String :=
  let title := jsTrim (e.title.getD "")
  let startTime :=
    match e.startTime with
    | some t => toString t
    | none => ""
  let location := jsTrim (e.location.getD "")
  let stableString := title ++ "|" ++ startTime ++ "|" ++ location
  let hash := stableString.data.foldl hashStep 0
  "benchapp-stable-" ++ toString hash.natAbs

/-- A parsed source (BenchApp) event as handed to the reconcilers:
`parseEventBlock` guarantees `title` and `startTime` are present and sets
`uid`; `endTime`, `location`, `description` may be absent. -/
structure SourceEvent where
  uid : String
  title : String
  startTime : Int
  endTime : Option Int
  location : Option String
  description : Option String
deriving DecidableEq

/-- A Google Calendar event as the scripts observe it: `getTitle()`,
`getStartTime().getTime()`, `getEndTime().getTime()`, `getLocation()` and
`getDescription()` (the `|| ''` guards in the scripts make a null location or
description behave as the empty string, so both are plain strings here). -/
structure TargetEvent where
  title : String
  startTime : Int
  endTime : Int
  location : String
  description : String
deriving DecidableEq

/-- Placeholder for out-of-range list indexing; every lookup the model
performs is proved in range. -/
def dummyTarget : TargetEvent :=
  { title := "", startTime := 0, endTime := 0, location := "", description := "" }

/-- The characters of the identity marker text `Hockey-UID:`. -/
def markerC : List Char := "Hockey-UID:".data

/-- The characters of `\n\nHockey-UID:`, the trailing-marker pattern of the
description-stripping regexes in `needsUpdate`. -/
def markerNL : List Char := "\n\nHockey-UID:".data

/-- Scanner for the regex `Hockey-UID:\s*([^\n\r\s]+)`: at each position, if
the marker text matches there, skip the whitespace run after it; a nonempty
run of non-whitespace characters is the capture, otherwise the scan moves on
(regex backtracking advances the start position).  The capture contains no
whitespace, so the `.trim()` the script applies to it is the identity. -/
def extractScan : List Char → Option String
  | [] => none
  | c :: rest =>
    if markerC.isPrefixOf (c :: rest) then
      let cap := (((c :: rest).drop markerC.length).dropWhile jsWS).takeWhile
        (fun ch => !jsWS ch)
      if cap.isEmpty then extractScan rest else some (String.mk cap)
    else extractScan rest

/-- `extractUIDFromDescription(description)` of the clean version
(`src/unnamed/part_001` lines 694–699): `null` for a falsy description,
otherwise the first regex match of `Hockey-UID:\s*([^\n\r\s]+)`, trimmed. -/
def extractUID (description : String) : Option String :=
  if description = "" then none else extractScan description.data

/-- Not a newline character (the class `[^\n\r]`). -/
def nonNL (c : Char) : Bool := c ≠ '\n' && c ≠ '\r'

/-- Capture of the legacy regex tail `\s*([^\n\r]+)` applied to `T`: the
greedy `\s*` takes the whole whitespace run when a non-whitespace character
follows (the capture is then the non-newline run from there); when `T` is
whitespace only, the greedy `\s*` backtracks to the last non-newline
position, so the capture is that single whitespace character (everything
after it is newlines); an empty capture means no match here. -/
def legacyCapture (T : List Char) : List Char :=
  let afterWS := T.dropWhile jsWS
  if afterWS.isEmpty then
    match T.reverse.dropWhile (fun c => !nonNL c) with
    | [] => []
    | c :: _ => [c]
  else afterWS.takeWhile nonNL

/-- Scanner for the legacy fallback regex `Hockey-UID:\s*([^\n\r]+)` of
`src/unnamed/part_000`; the script applies `.trim()` to the capture. -/
def extractScanLegacy : List Char → Option String
  | [] => none
  | c :: rest =>
    if markerC.isPrefixOf (c :: rest) then
      let cap := legacyCapture ((c :: rest).drop markerC.length)
      if cap.isEmpty then extractScanLegacy rest else some (jsTrim (String.mk cap))
    else extractScanLegacy rest

/-- `extractUIDFromDescription(description)` of the stable-UID version
(`src/unnamed/part_000` lines 71–87): first the strict regex
`Hockey-UID:\s*([^\n\r\s]+)`, then the legacy fallback
`Hockey-UID:\s*([^\n\r]+)`, both trimmed; `null` when neither matches. -/
def extractUIDStable (description : String) : Option String :=
  if description = "" then none
  else
    match extractScan description.data with
    | some u => some u
    | none => extractScanLegacy description.data

/-- JS truthiness of an optional string: the scripts guard extracted UIDs
with `if (uid)`, under which `null` and `''` both count as absent. -/
def truthyUID : Option String → Option String
  | some u => if u = "" then none else some u
  | none => none

/-- The stored identity of a target event as the clean version's maps and
delete phase see it (`extractUIDFromDescription` + the `if (uid)` guard). -/
def storedUID (t : TargetEvent) : Option String :=
  truthyUID (extractUID t.description)

/-- The stored identity as the stable-UID version sees it. -/
def storedUIDS (t : TargetEvent) : Option String :=
  truthyUID (extractUIDStable t.description)

/-- `CONFIG.EVENT_PREFIX` (named `prefixTag` here; `prefix` is reserved). -/
def prefixTag : String := "[Hockey] "

/-- JS truthiness of an optional string field (the `hockeyEvent.description ?`
test in `createEvent`/`updateEvent`). -/
def truthyStr : Option String → Bool
  | some s => s ≠ ""
  | none => false

/-- The description written by `createEvent` and `updateEvent`
(`src/unnamed/part_001` lines 626–628 and 649–651; identically
`src/unnamed/part_000` lines 263–265 and 286–288):
`(description || '').trim() + (description ? '\n\n' : '') + 'Hockey-UID: ' + uid`. -/
def appliedDescription (h : SourceEvent) : String :=
  jsTrim (h.description.getD "") ++ (if truthyStr h.description then "\n\n" else "")
    ++ "Hockey-UID: " ++ h.uid

/-- The target-calendar event produced by `createEvent(calendar, hockeyEvent)`
(`src/unnamed/part_001` lines 623–641, `src/unnamed/part_000` lines 258–278):
prefixed title, source start time, end time defaulted to start + 2 h
(7200000 ms), marker-bearing description, location or empty string. -/
def createEventTarget (h : SourceEvent) : TargetEvent :=
  { title := prefixTag ++ h.title
    startTime := h.startTime
    endTime := h.endTime.getD (h.startTime + 7200000)
    location := h.location.getD ""
    description := appliedDescription h }

/-- The state of an existing target event after
`updateEvent(existingEvent, hockeyEvent)` (`src/unnamed/part_001`
lines 646–659, `src/unnamed/part_000` lines 283–296): every compared field is
overwritten with the same values `createEvent` would use. -/
def updateEventTarget (h : SourceEvent) : TargetEvent :=
  { title := prefixTag ++ h.title
    startTime := h.startTime
    endTime := h.endTime.getD (h.startTime + 7200000)
    location := h.location.getD ""
    description := appliedDescription h }

/-- No `\n` or `\r` among the characters (`.*$` without the `s`/`m` flags can
only reach the end of input over newline-free text). -/
def noNL (l : List Char) : Bool := l.all nonNL

/-- `s.replace(/\n\nHockey-UID:.*$/, '')`: delete from the first occurrence of
`\n\nHockey-UID:` that is followed only by newline-free text to the end of
the string; leave `s` unchanged when no such occurrence exists. -/
def stripTrailUID : List Char → List Char
  | [] => []
  | c :: rest =>
    if markerNL.isPrefixOf (c :: rest) && noNL ((c :: rest).drop markerNL.length) then []
    else c :: stripTrailUID rest

/-- `s.replace(/^Hockey-UID:.*$/, '')`: the whole string is deleted when it
starts with `Hockey-UID:` and contains no later newline; otherwise unchanged. -/
def stripLeadUID (l : List Char) : List Char :=
  if markerC.isPrefixOf l && noNL (l.drop markerC.length) then [] else l

/-- `needsUpdate(existingEvent, hockeyEvent)` of the clean version
(`src/unnamed/part_001` lines 664–689): exact title comparison against
`EVENT_PREFIX + title`; start/end epoch difference beyond 300000 ms
(5 minutes); location compared lowercased and trimmed; description compared
with the marker line stripped (trailing `\n\nHockey-UID:…` block or a
leading whole-string `Hockey-UID:…`) and trimmed. -/
def needsUpdate (t : TargetEvent) (h : SourceEvent) : Bool :=
  let expectedTitle := prefixTag ++ h.title
  let expectedEndTime := h.endTime.getD (h.startTime + 7200000)
  let titleChanged := t.title ≠ expectedTitle
  let startTimeDiff := (t.startTime - h.startTime).natAbs
  let endTimeDiff := (t.endTime - expectedEndTime).natAbs
  let startChanged := startTimeDiff > 300000
  let endChanged := endTimeDiff > 300000
  let locationChanged := jsTrim (jsLower t.location) ≠ jsTrim (jsLower (h.location.getD ""))
  let existingContentDesc := jsTrim (String.mk (stripLeadUID (stripTrailUID t.description.data)))
  let newContentDesc := jsTrim (h.description.getD "")
  let descriptionChanged := existingContentDesc ≠ newContentDesc
  titleChanged || startChanged || endChanged || locationChanged || descriptionChanged

/-- `needsUpdate(existingEvent, hockeyEvent)` of the stable-UID version
(`src/unnamed/part_000` lines 232–253): 60000 ms (1 minute) tolerance,
case-sensitive trimmed location comparison, and only the trailing
`\n\nHockey-UID:…` block stripped from the description. -/
def needsUpdateS (t : TargetEvent) (h : SourceEvent) : Bool :=
  let expectedTitle := prefixTag ++ h.title
  let expectedEndTime := h.endTime.getD (h.startTime + 7200000)
  let titleChanged := t.title ≠ expectedTitle
  let startTimeDiff := (t.startTime - h.startTime).natAbs
  let endTimeDiff := (t.endTime - expectedEndTime).natAbs
  let startChanged := startTimeDiff > 60000
  let endChanged := endTimeDiff > 60000
  let locationChanged := jsTrim t.location ≠ jsTrim (h.location.getD "")
  let existingContentDesc := jsTrim (String.mk (stripTrailUID t.description.data))
  let newContentDesc := jsTrim (h.description.getD "")
  let descriptionChanged := existingContentDesc ≠ newContentDesc
  titleChanged || startChanged || endChanged || locationChanged || descriptionChanged

/-- The content key a source event contributes
(`src/unnamed/part_000` lines 180 and 215):
``` `${title}|${startTime.getTime()}|${location || ''}` ```. -/
def sourceContentKey (h : SourceEvent) : String :=
  h.title ++ "|" ++ toString h.startTime ++ "|" ++ h.location.getD ""

/-- The content key of a target event (`src/unnamed/part_000` lines 167 and
211): the title with the first occurrence of the prefix removed, the start
epoch, and the location. -/
def targetContentKey (t : TargetEvent) : String :=
  String.mk (replaceFirst prefixTag.data t.title.data) ++ "|" ++ toString t.startTime
    ++ "|" ++ t.location

/-- Index of the JS `Map` entry for key `u` when a map is populated by
iterating targets in order and calling `set` (later entries overwrite
earlier ones): the last index whose derived key is `u`.  Both scripts build
their lookup maps this way; the map stores object references, so a lookup
resolves to a position in the current target array. -/
def lastIdx (f : TargetEvent → Option String) : List TargetEvent → String → Option Nat
  | [], _ => none
  | t :: ts, u =>
    match lastIdx f ts u with
    | some i => some (i + 1)
    | none => if f t = some u then some 0 else none

/-- The last element of `l` whose derived key is `u` (the object a JS `Map`
lookup returns); related to `lastIdx` by `lastIdx_getD`. -/
def lastVal (f : TargetEvent → Option String) : List TargetEvent → String → Option TargetEvent
  | [], _ => none
  | t :: ts, u =>
    match lastVal f ts u with
    | some e => some e
    | none => if f t = some u then some t else none

/-- `hockeyEventMap.has(uid)`: the map keyed by `event.uid` has an entry for
every uid occurring in the source list. -/
def hasUID (hs : List SourceEvent) (u : String) : Bool :=
  hs.any (fun h => h.uid = u)

/-- The counters returned by `processEvents` of the clean version
(`src/unnamed/part_001` line 571). -/
structure SyncResults where
  added : Nat
  updated : Nat
  removed : Nat
  unchanged : Nat
deriving DecidableEq

/-- The counters returned by `processEventsWithStableUIDs`
(`src/unnamed/part_000` line 148). -/
structure SyncResultsS where
  added : Nat
  updated : Nat
  removed : Nat
  unchanged : Nat
  migrated : Nat
deriving DecidableEq

/-- State threaded through the first (`add or update`) loop of
`processEvents`: the target array with its in-place mutations so far, the
counters, and the events created so far. -/
structure Phase1State where
  arr : List TargetEvent
  added : Nat
  updated : Nat
  unchanged : Nat
  created : List TargetEvent
deriving DecidableEq

/-- One iteration of the `hockeyEvents.forEach` loop of `processEvents`
(`src/unnamed/part_001` lines 588–604).  `existingEventMap` was built before
the loop from the original target snapshot `ts0`, so the lookup resolves
through `lastIdx storedUID ts0` into the current array; `needsUpdate` then
reads the object's current state.  (`Utilities.sleep` is timing only and is
not modelled.) -/
def phase1Step (ts0 : List TargetEvent) (st : Phase1State) (h : SourceEvent) : Phase1State :=
  match lastIdx storedUID ts0 h.uid with
  | some i =>
    if needsUpdate (st.arr.getD i dummyTarget) h then
      { st with arr := st.arr.set i (updateEventTarget h), updated := st.updated + 1 }
    else
      { st with unchanged := st.unchanged + 1 }
  | none =>
    { st with added := st.added + 1, created := st.created ++ [createEventTarget h] }

/-- The whole first loop of `processEvents`. -/
def runPhase1 (hs : List SourceEvent) (ts : List TargetEvent) : Phase1State :=
  hs.foldl (phase1Step ts) { arr := ts, added := 0, updated := 0, unchanged := 0, created := [] }

/-- The delete-phase guard of `processEvents` (`src/unnamed/part_001`
lines 607–615): an existing event is kept unless a truthy uid can be
extracted from its (current) description and that uid has no entry in
`hockeyEventMap`. -/
def keepTarget (hs : List SourceEvent) (t : TargetEvent) : Bool :=
  match storedUID t with
  | some u => hasUID hs u
  | none => true

/-- The `existingEvents.forEach` delete loop of `processEvents`: returns the
surviving events (in order) and the `removed` count. -/
def removePhase (hs : List SourceEvent) : List TargetEvent → List TargetEvent × Nat
  | [] => ([], 0)
  | t :: ts =>
    let r := removePhase hs ts
    if keepTarget hs t then (t :: r.1, r.2) else (r.1, r.2 + 1)

/-- `processEvents(familyCalendar, hockeyEvents, existingEvents)` of the clean
version (`src/unnamed/part_001` lines 570–618), returning the counters and
the resulting target-calendar contents: the surviving pre-existing events
(with their in-place updates) followed by the newly created events. -/
def processEvents (hs : List SourceEvent) (ts : List TargetEvent) :
    SyncResults × List TargetEvent :=
  let st := runPhase1 hs ts
  let r := removePhase hs st.arr
  ({ added := st.added, updated := st.updated, removed := r.2, unchanged := st.unchanged },
    r.1 ++ st.created)

/-- `fetchHockeyEvents()` (`src/unnamed/part_001` lines 455–464): the fetch
and parse of the feed is abstracted as an `Option` — `none` when
`UrlFetchApp.fetch` throws, `some events` with the parsed list otherwise.
The `catch` block returns the empty list on failure. -/
def fetchHockeyEvents (fetched : Option (List SourceEvent)) : List SourceEvent :=
  match fetched with
  | some events => events
  | none => []

/-- The reconciliation pipeline of `syncHockeyCalendar`
(`src/unnamed/part_001` lines 413–449): fetch (with its error handling),
then `processEvents` against the existing events. -/
def syncHockeyCalendar (fetched : Option (List SourceEvent))
    (existingEvents : List TargetEvent) : SyncResults × List TargetEvent :=
  processEvents (fetchHockeyEvents fetched) existingEvents

/-- The classification decisions `processEventsWithStableUIDs` makes for the
source events, in loop order: each decision names the mutation request it
emits (`update`/`migrate` carry the index of the affected target). -/
inductive DecisionS where
  | create (h : SourceEvent)
  | update (i : Nat) (h : SourceEvent)
  | migrate (i : Nat) (h : SourceEvent)
  | unchanged (i : Nat) (h : SourceEvent)
deriving DecidableEq

/-- State threaded through the first loop of `processEventsWithStableUIDs`. -/
structure Phase1SState where
  arr : List TargetEvent
  added : Nat
  updated : Nat
  migrated : Nat
  unchanged : Nat
  created : List TargetEvent
  decisions : List DecisionS
deriving DecidableEq

/-- One iteration of the `hockeyEvents.forEach` loop of
`processEventsWithStableUIDs` (`src/unnamed/part_000` lines 174–205): look up
by stored uid first; failing that, look up by content key
(`existingByContent`, also built from the original snapshot `ts0`); a
content hit is a migration and always updates; a uid hit updates only when
`needsUpdate` reports a change; no hit creates. -/
def phase1SStep (ts0 : List TargetEvent) (st : Phase1SState) (h : SourceEvent) : Phase1SState :=
  match lastIdx storedUIDS ts0 h.uid with
  | some i =>
    if needsUpdateS (st.arr.getD i dummyTarget) h then
      { st with
        arr := st.arr.set i (updateEventTarget h)
        updated := st.updated + 1
        decisions := st.decisions ++ [DecisionS.update i h] }
    else
      { st with
        unchanged := st.unchanged + 1
        decisions := st.decisions ++ [DecisionS.unchanged i h] }
  | none =>
    match lastIdx (fun t => some (targetContentKey t)) ts0 (sourceContentKey h) with
    | some i =>
      { st with
        arr := st.arr.set i (updateEventTarget h)
        migrated := st.migrated + 1
        decisions := st.decisions ++ [DecisionS.migrate i h] }
    | none =>
      { st with
        added := st.added + 1
        created := st.created ++ [createEventTarget h]
        decisions := st.decisions ++ [DecisionS.create h] }

/-- The whole first loop of `processEventsWithStableUIDs`. -/
def runPhase1S (hs : List SourceEvent) (ts : List TargetEvent) : Phase1SState :=
  hs.foldl (phase1SStep ts)
    { arr := ts, added := 0, updated := 0, migrated := 0, unchanged := 0
      created := [], decisions := [] }

/-- The values of `hockeyEventMap` (`Array.from(hockeyEventMap.values())` in
the delete phase): one event per uid, the last occurrence winning.  Only
membership matters to the `.some(...)` test that consumes this list. -/
def mapValues : List SourceEvent → List SourceEvent
  | [] => []
  | h :: rest =>
    if rest.any (fun h2 => h2.uid = h.uid) then mapValues rest else h :: mapValues rest

/-- The delete-phase guard of `processEventsWithStableUIDs`
(`src/unnamed/part_000` lines 209–224): an event is deleted when its
(current) stored uid matches no source uid (`existsByUID`) and its (current)
content key matches none of the uid-deduplicated source events
(`existsByContent`). -/
def deletableS (hs : List SourceEvent) (t : TargetEvent) : Bool :=
  let existsByUID :=
    match storedUIDS t with
    | some u => hasUID hs u
    | none => false
  let existsByContent :=
    (mapValues hs).any (fun h => sourceContentKey h = targetContentKey t)
  !existsByUID && !existsByContent

/-- The delete loop of `processEventsWithStableUIDs`: survivors and the
`removed` count. -/
def removePhaseS (hs : List SourceEvent) : List TargetEvent → List TargetEvent × Nat
  | [] => ([], 0)
  | t :: ts =>
    let r := removePhaseS hs ts
    if deletableS hs t then (r.1, r.2 + 1) else (t :: r.1, r.2)

/-- `processEventsWithStableUIDs(familyCalendar, hockeyEvents, existingEvents)`
(`src/unnamed/part_000` lines 147–227): counters, resulting target-calendar
contents (survivors then created events), and the decision list. -/
def processEventsWithStableUIDs (hs : List SourceEvent) (ts : List TargetEvent) :
    SyncResultsS × List TargetEvent × List DecisionS :=
  let st := runPhase1S hs ts
  let r := removePhaseS hs st.arr
  ({ added := st.added, updated := st.updated, removed := r.2
     unchanged := st.unchanged, migrated := st.migrated },
    r.1 ++ st.created, st.decisions)

/-! ## Lemmas about the `Map` model (`lastIdx` / `lastVal`) -/

theorem getD_mem_of_lt {l : List TargetEvent} {n : Nat} (h : n < l.length) :
    l.getD n dummyTarget ∈ l := by
  rw [List.getD_eq_getElem l dummyTarget h]
  exact List.getElem_mem h

theorem mem_getD {l : List TargetEvent} {t : TargetEvent} (h : t ∈ l) :
    ∃ n, n < l.length ∧ l.getD n dummyTarget = t := by
  obtain ⟨n, hn, hget⟩ := List.mem_iff_getElem.mp h
  exact ⟨n, hn, by rw [List.getD_eq_getElem l dummyTarget hn]; exact hget⟩

theorem lastIdx_sound (f : TargetEvent → Option String) :
    ∀ {l : List TargetEvent} {u : String} {i : Nat}, lastIdx f l u = some i →
      i < l.length ∧ f (l.getD i dummyTarget) = some u := by
  intro l
  induction l with
  | nil => intro u i h; simp [lastIdx] at h
  | cons t ts ih =>
    intro u i h
    rw [lastIdx] at h
    cases h' : lastIdx f ts u with
    | some j =>
      rw [h'] at h
      obtain ⟨hlt, hval⟩ := ih h'
      cases h
      exact ⟨Nat.succ_lt_succ hlt, by simpa using hval⟩
    | none =>
      rw [h'] at h
      by_cases hft : f t = some u
      · rw [if_pos hft] at h
        cases h
        exact ⟨Nat.succ_pos _, by simpa using hft⟩
      · rw [if_neg hft] at h
        cases h

theorem lastIdx_none (f : TargetEvent → Option String) :
    ∀ {l : List TargetEvent} {u : String},
      lastIdx f l u = none ↔ ∀ t ∈ l, f t ≠ some u := by
  intro l
  induction l with
  | nil => intro u; simp [lastIdx]
  | cons t ts ih =>
    intro u
    rw [lastIdx]
    cases h' : lastIdx f ts u with
    | some j =>
      simp only [reduceCtorEq, false_iff]
      intro hall
      have := (ih (u := u)).mpr fun t' ht' => hall t' (List.mem_cons_of_mem _ ht')
      rw [this] at h'
      cases h'
    | none =>
      have hts := (ih (u := u)).mp h'
      by_cases hft : f t = some u
      · simp [hft]
      · simp only [if_neg hft, true_iff]
        intro t' ht'
        rcases List.mem_cons.mp ht' with rfl | hmem
        · exact hft
        · exact hts t' hmem

theorem lastIdx_after (f : TargetEvent → Option String) :
    ∀ {l : List TargetEvent} {u : String} {i : Nat}, lastIdx f l u = some i →
      ∀ j, i < j → j < l.length → f (l.getD j dummyTarget) ≠ some u := by
  intro l
  induction l with
  | nil => intro u i h; simp [lastIdx] at h
  | cons t ts ih =>
    intro u i h j hij hj
    rw [lastIdx] at h
    cases h' : lastIdx f ts u with
    | some k =>
      rw [h'] at h
      cases h
      cases j with
      | zero => omega
      | succ j' =>
        have := ih h' j' (Nat.lt_of_succ_lt_succ hij) (Nat.lt_of_succ_lt_succ hj)
        simpa using this
    | none =>
      rw [h'] at h
      by_cases hft : f t = some u
      · rw [if_pos hft] at h
        cases h
        cases j with
        | zero => omega
        | succ j' =>
          have := (lastIdx_none f).mp h'
          have hmem : ts.getD j' dummyTarget ∈ ts := getD_mem_of_lt (Nat.lt_of_succ_lt_succ hj)
          simpa using this _ hmem
      · rw [if_neg hft] at h
        cases h

theorem lastIdx_complete (f : TargetEvent → Option String) :
    ∀ {l : List TargetEvent} {u : String} {i : Nat}, i < l.length →
      f (l.getD i dummyTarget) = some u →
      (∀ j, i < j → j < l.length → f (l.getD j dummyTarget) ≠ some u) →
      lastIdx f l u = some i := by
  intro l
  induction l with
  | nil => intro u i hi; simp at hi
  | cons t ts ih =>
    intro u i hi hval hafter
    cases i with
    | zero =>
      have hnone : lastIdx f ts u = none := by
        rw [lastIdx_none f]
        intro t' ht'
        obtain ⟨j, hj, rfl⟩ := mem_getD ht'
        have := hafter (j + 1) (Nat.succ_pos _) (Nat.succ_lt_succ hj)
        simpa using this
      rw [lastIdx, hnone]
      simp only [List.getD_cons_zero] at hval
      rw [if_pos hval]
    | succ i' =>
      have hts : lastIdx f ts u = some i' := by
        apply ih (Nat.lt_of_succ_lt_succ hi) (by simpa using hval)
        intro j hij hj
        have := hafter (j + 1) (Nat.succ_lt_succ hij) (Nat.succ_lt_succ hj)
        simpa using this
      rw [lastIdx, hts]

theorem lastVal_none (f : TargetEvent → Option String) :
    ∀ {l : List TargetEvent} {u : String},
      lastVal f l u = none ↔ ∀ t ∈ l, f t ≠ some u := by
  intro l
  induction l with
  | nil => intro u; simp [lastVal]
  | cons t ts ih =>
    intro u
    rw [lastVal]
    cases h' : lastVal f ts u with
    | some e =>
      simp only [reduceCtorEq, false_iff]
      intro hall
      have := (ih (u := u)).mpr fun t' ht' => hall t' (List.mem_cons_of_mem _ ht')
      rw [this] at h'
      cases h'
    | none =>
      have hts := (ih (u := u)).mp h'
      by_cases hft : f t = some u
      · simp [hft]
      · simp only [if_neg hft, true_iff]
        intro t' ht'
        rcases List.mem_cons.mp ht' with rfl | hmem
        · exact hft
        · exact hts t' hmem

theorem lastVal_eq_getD (f : TargetEvent → Option String) :
    ∀ {l : List TargetEvent} {u : String} {i : Nat}, lastIdx f l u = some i →
      lastVal f l u = some (l.getD i dummyTarget) := by
  intro l
  induction l with
  | nil => intro u i h; simp [lastIdx] at h
  | cons t ts ih =>
    intro u i h
    rw [lastIdx] at h
    rw [lastVal]
    cases h' : lastIdx f ts u with
    | some j =>
      rw [h'] at h
      cases h
      rw [ih h']
      simp
    | none =>
      rw [h'] at h
      by_cases hft : f t = some u
      · rw [if_pos hft] at h
        cases h
        have : lastVal f ts u = none := by
          rw [lastVal_none f]
          exact (lastIdx_none f).mp h'
        rw [this]
        simp [hft]
      · rw [if_neg hft] at h
        cases h

theorem lastVal_mem (f : TargetEvent → Option String) :
    ∀ {l : List TargetEvent} {u : String} {e : TargetEvent}, lastVal f l u = some e →
      e ∈ l ∧ f e = some u := by
  intro l
  induction l with
  | nil => intro u e h; simp [lastVal] at h
  | cons t ts ih =>
    intro u e h
    rw [lastVal] at h
    cases h' : lastVal f ts u with
    | some e' =>
      rw [h'] at h
      cases h
      obtain ⟨hm, hv⟩ := ih h'
      exact ⟨List.mem_cons_of_mem _ hm, hv⟩
    | none =>
      rw [h'] at h
      by_cases hft : f t = some u
      · rw [if_pos hft] at h
        cases h
        exact ⟨List.mem_cons_self _ _, hft⟩
      · rw [if_neg hft] at h
        cases h

theorem lastVal_append (f : TargetEvent → Option String) :
    ∀ (a b : List TargetEvent) (u : String),
      lastVal f (a ++ b) u =
        match lastVal f b u with
        | some e => some e
        | none => lastVal f a u := by
  intro a
  induction a with
  | nil =>
    intro b u
    cases h : lastVal f b u <;> simp [lastVal, h]
  | cons t a ih =>
    intro b u
    rw [List.cons_append, lastVal, ih]
    cases h : lastVal f b u with
    | some e => simp
    | none => rw [lastVal]

theorem lastVal_uniq (f : TargetEvent → Option String) :
    ∀ {l : List TargetEvent} {u : String} {e : TargetEvent}, e ∈ l → f e = some u →
      (∀ t ∈ l, f t = some u → t = e) → lastVal f l u = some e := by
  intro l
  induction l with
  | nil => intro u e h; simp at h
  | cons t ts ih =>
    intro u e hmem hval huniq
    rw [lastVal]
    cases h' : lastVal f ts u with
    | some e' =>
      obtain ⟨hm, hv⟩ := lastVal_mem f h'
      rw [huniq e' (List.mem_cons_of_mem _ hm) hv]
    | none =>
      have hnone := (lastVal_none f).mp h'
      rcases List.mem_cons.mp hmem with rfl | hm
      · rw [if_pos hval]
      · exact absurd hval (hnone e hm)

theorem lastVal_filter (f : TargetEvent → Option String) (p : TargetEvent → Bool) :
    ∀ {l : List TargetEvent} {u : String} {e : TargetEvent}, lastVal f l u = some e →
      p e = true → lastVal f (l.filter p) u = some e := by
  intro l
  induction l with
  | nil => intro u e h; simp [lastVal] at h
  | cons t ts ih =>
    intro u e h hp
    rw [lastVal] at h
    cases h' : lastVal f ts u with
    | some e' =>
      rw [h'] at h
      cases h
      rw [List.filter_cons]
      by_cases hpt : p t = true
      · rw [if_pos hpt, lastVal, ih h' hp]
      · rw [if_neg hpt]
        exact ih h' hp
    | none =>
      rw [h'] at h
      by_cases hft : f t = some u
      · rw [if_pos hft] at h
        cases h
        rw [List.filter_cons, if_pos hp, lastVal]
        have : lastVal f (ts.filter p) u = none := by
          rw [lastVal_none f]
          intro t' ht'
          exact (lastVal_none f).mp h' t' (List.mem_of_mem_filter ht')
        rw [this, if_pos hft]
      · rw [if_neg hft] at h
        cases h

/-! ## Lemmas about `processEvents` (clean version) -/

/-- Abbreviation: the uid lookup for `h` resolves to index `j` of the
original target snapshot. -/
def hitsIdx (ts0 : List TargetEvent) (j : Nat) (h : SourceEvent) : Bool :=
  lastIdx storedUID ts0 h.uid == some j

/-- Abbreviation: the uid lookup for `h` misses. -/
def missesMap (ts0 : List TargetEvent) (h : SourceEvent) : Bool :=
  lastIdx storedUID ts0 h.uid == none

theorem removePhase_eq (hs : List SourceEvent) :
    ∀ l : List TargetEvent,
      removePhase hs l =
        (l.filter (keepTarget hs), (l.filter (fun t => !keepTarget hs t)).length) := by
  intro l
  induction l with
  | nil => simp [removePhase]
  | cons t ts ih =>
    rw [removePhase, ih]
    by_cases h : keepTarget hs t <;> simp [h, List.filter_cons]

theorem phase1_foldl_length (ts0 : List TargetEvent) :
    ∀ (hs : List SourceEvent) (st : Phase1State),
      (hs.foldl (phase1Step ts0) st).arr.length = st.arr.length := by
  intro hs
  induction hs with
  | nil => intro st; simp
  | cons h hs ih =>
    intro st
    rw [List.foldl_cons, ih]
    cases hL : lastIdx storedUID ts0 h.uid with
    | some i =>
      by_cases hn : needsUpdate (st.arr.getD i dummyTarget) h
      · simp only [phase1Step, hL, if_pos hn]
        simp
      · simp only [phase1Step, hL, if_neg hn]
    | none => simp only [phase1Step, hL]

theorem phase1_foldl_untouched (ts0 : List TargetEvent) {j : Nat} :
    ∀ (hs : List SourceEvent), (∀ h ∈ hs, lastIdx storedUID ts0 h.uid ≠ some j) →
      ∀ st : Phase1State,
        (hs.foldl (phase1Step ts0) st).arr.getD j dummyTarget = st.arr.getD j dummyTarget := by
  intro hs
  induction hs with
  | nil => intro _ st; simp
  | cons h hs ih =>
    intro hall st
    rw [List.foldl_cons, ih (fun h' hh' => hall h' (List.mem_cons_of_mem _ hh'))]
    cases hL : lastIdx storedUID ts0 h.uid with
    | some i =>
      have hne : i ≠ j := fun he => hall h (List.mem_cons_self _ _) (he ▸ hL)
      by_cases hn : needsUpdate (st.arr.getD i dummyTarget) h
      · simp only [phase1Step, hL, if_pos hn]
        simp [List.getD, List.getElem?_set_ne hne]
      · simp only [phase1Step, hL, if_neg hn]
    | none => simp only [phase1Step, hL]

theorem phase1_foldl_char (ts0 : List TargetEvent) :
    ∀ (hs : List SourceEvent), (hs.map SourceEvent.uid).Nodup →
      ∀ st : Phase1State, st.arr.length = ts0.length →
        (∀ j, (hs.foldl (phase1Step ts0) st).arr.getD j dummyTarget =
          match hs.find? (hitsIdx ts0 j) with
          | some h =>
            if needsUpdate (st.arr.getD j dummyTarget) h then updateEventTarget h
            else st.arr.getD j dummyTarget
          | none => st.arr.getD j dummyTarget)
        ∧ (hs.foldl (phase1Step ts0) st).created =
            st.created ++ (hs.filter (missesMap ts0)).map createEventTarget := by
  intro hs
  induction hs with
  | nil => intro _ st _; simp
  | cons h hs ih =>
    intro hnd st hlen
    have hnd' : (hs.map SourceEvent.uid).Nodup := (List.nodup_cons.mp hnd).2
    have hnotin : h.uid ∉ hs.map SourceEvent.uid := (List.nodup_cons.mp hnd).1
    rw [List.foldl_cons]
    cases hL : lastIdx storedUID ts0 h.uid with
    | none =>
      have hstep : phase1Step ts0 st h =
          { st with added := st.added + 1, created := st.created ++ [createEventTarget h] } := by
        simp only [phase1Step, hL]
      rw [hstep]
      obtain ⟨harr, hcr⟩ := ih hnd'
        { st with added := st.added + 1, created := st.created ++ [createEventTarget h] }
        (by simpa using hlen)
      dsimp only at harr hcr
      refine ⟨?_, ?_⟩
      · intro j
        rw [harr j]
        have hpredj : hitsIdx ts0 j h = false := by simp [hitsIdx, hL]
        simp only [List.find?_cons, hpredj]
      · rw [hcr]
        have hpredm : missesMap ts0 h = true := by simp [missesMap, hL]
        simp [List.filter_cons, hpredm]
    | some i =>
      have hi := lastIdx_sound storedUID hL
      have hfind : hs.find? (hitsIdx ts0 i) = none := by
        rw [List.find?_eq_none]
        intro h' hh'
        simp only [hitsIdx, beq_iff_eq]
        intro hL'
        have hs' := lastIdx_sound storedUID hL'
        have huid : h'.uid = h.uid := by
          have h2 := hi.2
          rw [hs'.2] at h2
          exact Option.some.inj h2
        exact absurd (huid ▸ List.mem_map_of_mem SourceEvent.uid hh') hnotin
      have hpredm : missesMap ts0 h = false := by simp [missesMap, hL]
      by_cases hn : needsUpdate (st.arr.getD i dummyTarget) h
      · have hstep : phase1Step ts0 st h =
            { st with arr := st.arr.set i (updateEventTarget h), updated := st.updated + 1 } := by
          simp only [phase1Step, hL, if_pos hn]
        rw [hstep]
        obtain ⟨harr, hcr⟩ := ih hnd'
          { st with arr := st.arr.set i (updateEventTarget h), updated := st.updated + 1 }
          (by simpa using hlen)
        dsimp only at harr hcr
        refine ⟨?_, ?_⟩
        · intro j
          rw [harr j]
          by_cases hij : j = i
          · subst hij
            have hpredj : hitsIdx ts0 j h = true := by simp [hitsIdx, hL]
            have hjlt : j < st.arr.length := hlen ▸ hi.1
            have hgetset : (st.arr.set j (updateEventTarget h)).getD j dummyTarget
                = updateEventTarget h := by
              simp [List.getD, List.getElem?_set_self hjlt]
            simp only [hfind, hgetset, List.find?_cons, hpredj, if_pos hn]
          · have hpredj : hitsIdx ts0 j h = false := by
              simp only [hitsIdx, hL, beq_eq_false_iff_ne, ne_eq, Option.some.injEq]
              exact fun he => hij he.symm
            have hgetset : (st.arr.set i (updateEventTarget h)).getD j dummyTarget
                = st.arr.getD j dummyTarget := by
              simp [List.getD, List.getElem?_set_ne (fun he => hij he.symm)]
            rw [hgetset]
            simp only [List.find?_cons, hpredj]
        · rw [hcr]
          simp [List.filter_cons, hpredm]
      · have hstep : phase1Step ts0 st h =
            { st with unchanged := st.unchanged + 1 } := by
          simp only [phase1Step, hL, if_neg hn]
        rw [hstep]
        obtain ⟨harr, hcr⟩ := ih hnd'
          { st with unchanged := st.unchanged + 1 }
          (by simpa using hlen)
        dsimp only at harr hcr
        refine ⟨?_, ?_⟩
        · intro j
          rw [harr j]
          by_cases hij : j = i
          · subst hij
            have hpredj : hitsIdx ts0 j h = true := by simp [hitsIdx, hL]
            simp only [hfind, List.find?_cons, hpredj, if_neg hn]
          · have hpredj : hitsIdx ts0 j h = false := by
              simp only [hitsIdx, hL, beq_eq_false_iff_ne, ne_eq, Option.some.injEq]
              exact fun he => hij he.symm
            simp only [List.find?_cons, hpredj]
        · rw [hcr]
          simp [List.filter_cons, hpredm]

/-! ## String lemmas: trimming, the marker, and the scanners -/

theorem dropWhile_eq_self_of_not {p : Char → Bool} :
    ∀ {l : List Char}, (∀ c ∈ l, p c = false) → l.dropWhile p = l := by
  intro l h
  cases l with
  | nil => rfl
  | cons c cs => simp [List.dropWhile_cons, h c (List.mem_cons_self c cs)]

theorem takeWhile_eq_self_of_all {p : Char → Bool} :
    ∀ {l : List Char}, (∀ c ∈ l, p c = true) → l.takeWhile p = l := by
  intro l
  induction l with
  | nil => intro _; rfl
  | cons c cs ih =>
    intro h
    simp only [List.takeWhile_cons, h c (List.mem_cons_self c cs), if_true]
    rw [ih fun c' hc' => h c' (List.mem_cons_of_mem _ hc')]

theorem head_dropWhile_not (p : Char → Bool) :
    ∀ (l : List Char) (c : Char), (l.dropWhile p).head? = some c → p c = false := by
  intro l
  induction l with
  | nil => intro c h; simp at h
  | cons a as ih =>
    intro c h
    rw [List.dropWhile_cons] at h
    by_cases hp : p a
    · rw [if_pos hp] at h
      exact ih c h
    · rw [if_neg hp] at h
      simp only [List.head?_cons, Option.some.injEq] at h
      subst h
      exact Bool.not_eq_true _ ▸ (by simpa using hp)

theorem dropWhile_eq_self_of_head? {p : Char → Bool} {l : List Char}
    (h : ∀ c, l.head? = some c → p c = false) : l.dropWhile p = l := by
  cases l with
  | nil => rfl
  | cons c cs => simp [List.dropWhile_cons, h c rfl]

theorem trimChars_eq_rdrop (l : List Char) :
    trimChars l = List.rdropWhile jsWS (l.dropWhile jsWS) := rfl

theorem trimChars_idem (l : List Char) : trimChars (trimChars l) = trimChars l := by
  rw [trimChars_eq_rdrop, trimChars_eq_rdrop]
  have h1 : (List.rdropWhile jsWS (l.dropWhile jsWS)).dropWhile jsWS
      = List.rdropWhile jsWS (l.dropWhile jsWS) := by
    apply dropWhile_eq_self_of_head?
    intro c hc
    obtain ⟨t, ht⟩ := List.rdropWhile_prefix jsWS (l.dropWhile jsWS)
    have hhd : (l.dropWhile jsWS).head? = some c := by
      rw [← ht]
      rwa [List.head?_append_of_ne_nil]
      intro hnil
      rw [hnil] at hc
      simp at hc
    exact head_dropWhile_not jsWS l c hhd
  rw [h1]
  exact List.rdropWhile_idempotent _ _

theorem trimChars_infix_self (l : List Char) : trimChars l <:+: l := by
  rw [trimChars_eq_rdrop]
  exact ((List.rdropWhile_prefix jsWS (l.dropWhile jsWS)).isInfix).trans
    (List.dropWhile_suffix jsWS).isInfix

theorem hasSubstr_iff (sub : List Char) :
    ∀ (l : List Char), hasSubstr sub l = true ↔ sub <:+: l := by
  intro l
  induction l with
  | nil =>
    simp only [hasSubstr, List.isEmpty_iff, List.infix_nil]
  | cons c cs ih =>
    simp only [hasSubstr, Bool.or_eq_true, List.isPrefixOf_iff_prefix, ih,
      List.infix_cons_iff]

theorem hasSubstr_mono {sub l1 l2 : List Char} (h : l1 <:+: l2)
    (hs : hasSubstr sub l1 = true) : hasSubstr sub l2 = true :=
  (hasSubstr_iff sub l2).mpr (((hasSubstr_iff sub l1).mp hs).trans h)

theorem hasSubstr_not_mono {sub l1 l2 : List Char} (h : l1 <:+: l2)
    (hs : hasSubstr sub l2 = false) : hasSubstr sub l1 = false := by
  cases hq : hasSubstr sub l1 with
  | false => rfl
  | true => rw [hasSubstr_mono h hq] at hs; cases hs

theorem prefix_append_of_le {p a b : List Char} (h : p <+: a ++ b)
    (hl : p.length ≤ a.length) : p <+: a := by
  have hp := List.prefix_iff_eq_take.mp h
  rw [List.take_append_of_le_length hl] at hp
  rw [hp]
  exact List.take_prefix _ _

theorem hasSubstr_of_leading {sub l : List Char} (h : sub <+: l) :
    hasSubstr sub l = true :=
  (hasSubstr_iff sub l).mpr h.isInfix

theorem getElem?_marker_nl {a rest0 t : List Char} {pat : List Char} {m : Nat}
    (hm : m = a.length) (hlt : m < pat.length)
    (ht : pat ++ t = a ++ '\n' :: '\n' :: rest0) : pat[m]? = some '\n' := by
  have h1 : (pat ++ t)[m]? = pat[m]? := by rw [List.getElem?_append, if_pos hlt]
  have h2 : (a ++ '\n' :: '\n' :: rest0)[m]? = some '\n' := by
    rw [List.getElem?_append_right (by omega)]
    simp [hm]
  rw [ht] at h1
  rw [h2] at h1
  exact h1.symm

/-- The marker `Hockey-UID:` cannot start strictly inside `a` and reach into
an appended `\n\n…` block, because the marker contains no newline; it can
only occur entirely inside `a`. -/
theorem noPrefix_markerC_mid {a rest0 : List Char} (hne : a ≠ [])
    (hno : hasSubstr markerC a = false) :
    markerC.isPrefixOf (a ++ '\n' :: '\n' :: rest0) = false := by
  cases hb : markerC.isPrefixOf (a ++ '\n' :: '\n' :: rest0) with
  | false => rfl
  | true =>
    exfalso
    have hpref : markerC <+: a ++ '\n' :: '\n' :: rest0 :=
      List.isPrefixOf_iff_prefix.mp hb
    by_cases hlen : markerC.length ≤ a.length
    · exact absurd (hasSubstr_of_leading (prefix_append_of_le hpref hlen)) (by simp [hno])
    · obtain ⟨t, ht⟩ := hpref
      have hm : a.length < markerC.length := by omega
      have hnl : markerC[a.length]? = some '\n' := getElem?_marker_nl rfl hm ht
      have hmem : '\n' ∈ markerC := List.getElem?_mem hnl
      exact absurd hmem (by decide)

/-- Same for the pattern `\n\nHockey-UID:` of the trailing-marker regex:
its two leading newlines cannot align strictly inside `a` followed by the
`\n\n` separator. -/
theorem noPrefix_markerNL_mid {a rest0 : List Char} (hne : a ≠ [])
    (hno : hasSubstr markerC a = false) :
    markerNL.isPrefixOf (a ++ '\n' :: '\n' :: rest0) = false := by
  cases hb : markerNL.isPrefixOf (a ++ '\n' :: '\n' :: rest0) with
  | false => rfl
  | true =>
    exfalso
    have hpref : markerNL <+: a ++ '\n' :: '\n' :: rest0 :=
      List.isPrefixOf_iff_prefix.mp hb
    by_cases hlen : markerNL.length ≤ a.length
    · have hpa : markerNL <+: a := prefix_append_of_le hpref hlen
      have : hasSubstr markerC a = true := by
        apply hasSubstr_mono hpa.isInfix
        exact (hasSubstr_iff markerC markerNL).mpr (by decide)
      simp [this] at hno
    · obtain ⟨t, ht⟩ := hpref
      have hm : a.length < markerNL.length := by omega
      cases ha : a.length with
      | zero =>
        exact hne (List.eq_nil_of_length_eq_zero ha)
      | succ n =>
        cases n with
        | zero =>
          have h2 : (markerNL ++ t)[2]? = markerNL[2]? := by
            rw [List.getElem?_append, if_pos (by decide)]
          have h3 : (a ++ '\n' :: '\n' :: rest0)[2]? = some '\n' := by
            rw [List.getElem?_append_right (by omega)]
            have : 2 - a.length = 1 := by omega
            rw [this]
            simp
          rw [ht, h3] at h2
          have : markerNL[2]? = some 'H' := by decide
          rw [this] at h2
          cases h2
        | succ n' =>
          have hnl : markerNL[a.length]? = some '\n' := getElem?_marker_nl rfl hm ht
          have hsplit : markerNL[a.length]? = markerC[n']? := by
            rw [ha]
            show ('\n' :: '\n' :: markerC)[n' + 1 + 1]? = markerC[n']?
            simp
          rw [hsplit] at hnl
          have hmem : '\n' ∈ markerC := List.getElem?_mem hnl
          exact absurd hmem (by decide)

/-- If the marker never matches at a position inside `pre`, the scan of
`pre ++ suffix` is the scan of `suffix`. -/
theorem extractScan_append {suffix : List Char} :
    ∀ (pre : List Char),
      (∀ q, q < pre.length → markerC.isPrefixOf (pre.drop q ++ suffix) = false) →
      extractScan (pre ++ suffix) = extractScan suffix := by
  intro pre
  induction pre with
  | nil => intro _; rfl
  | cons c cs ih =>
    intro hall
    have h0 : markerC.isPrefixOf ((c :: cs) ++ suffix) = false := by
      have := hall 0 (Nat.succ_pos _)
      simpa using this
    rw [List.cons_append, extractScan]
    rw [show ((c :: cs) ++ suffix) = c :: (cs ++ suffix) from rfl] at h0
    rw [h0]
    simp only [Bool.false_eq_true, if_false]
    exact ih fun q hq => by
      have := hall (q + 1) (Nat.succ_lt_succ hq)
      simpa using this

/-- If the trailing-marker pattern never matches at a position inside `pre`,
stripping `pre ++ suffix` keeps `pre` and strips inside `suffix`. -/
theorem stripTrailUID_append {suffix : List Char} :
    ∀ (pre : List Char),
      (∀ q, q < pre.length → markerNL.isPrefixOf (pre.drop q ++ suffix) = false) →
      stripTrailUID (pre ++ suffix) = pre ++ stripTrailUID suffix := by
  intro pre
  induction pre with
  | nil => intro _; rfl
  | cons c cs ih =>
    intro hall
    have h0 : markerNL.isPrefixOf ((c :: cs) ++ suffix) = false := by
      have := hall 0 (Nat.succ_pos _)
      simpa using this
    rw [List.cons_append, stripTrailUID]
    rw [show ((c :: cs) ++ suffix) = c :: (cs ++ suffix) from rfl] at h0
    rw [h0]
    simp only [Bool.false_and, Bool.false_eq_true, if_false, List.cons_append]
    rw [ih fun q hq => by
      have := hall (q + 1) (Nat.succ_lt_succ hq)
      simpa using this]

/-- Well-formedness of a source event for the round-trip properties: the uid
is nonempty and whitespace-free (as every `createStableUID` output is), and
the description does not itself contain the marker text `Hockey-UID:`. -/
def WF (h : SourceEvent) : Prop :=
  h.uid ≠ "" ∧ h.uid.data.all (fun c => !jsWS c) = true ∧
    hasSubstr markerC (h.description.getD "").data = false

instance : DecidablePred WF := fun h => by
  unfold WF
  infer_instance

theorem nonNL_of_not_ws {c : Char} (h : jsWS c = false) : nonNL c = true := by
  by_cases h1 : c = '\n'
  · subst h1; simp [jsWS] at h
  · by_cases h2 : c = '\r'
    · subst h2; simp [jsWS] at h
    · simp [nonNL, h1, h2]

theorem noNL_space_uid {uid : String} (hws : uid.data.all (fun c => !jsWS c) = true) :
    noNL (' ' :: uid.data) = true := by
  simp only [noNL, List.all_cons, Bool.and_eq_true]
  refine ⟨by decide, ?_⟩
  rw [List.all_eq_true] at hws ⊢
  intro c hc
  have := hws c hc
  exact nonNL_of_not_ws (by simpa using this)

theorem string_ne_empty_iff (s : String) : s ≠ "" ↔ s.data ≠ [] := by
  constructor
  · intro h hd
    exact h (String.ext (by rw [hd]))
  · intro h he
    exact h (by rw [he])

theorem extractScan_marker (uid : String) (hne : uid ≠ "")
    (hws : uid.data.all (fun c => !jsWS c) = true) :
    extractScan (markerC ++ (' ' :: uid.data)) = some uid := by
  have hx : markerC ++ (' ' :: uid.data) = 'H' :: ("ockey-UID:".data ++ (' ' :: uid.data)) := rfl
  have hp : markerC.isPrefixOf (markerC ++ (' ' :: uid.data)) = true :=
    List.isPrefixOf_iff_prefix.mpr (List.prefix_append _ _)
  rw [hx] at hp
  have hdropall : uid.data.dropWhile jsWS = uid.data :=
    dropWhile_eq_self_of_not fun c hc => by
      have := (List.all_eq_true.mp hws) c hc
      simpa using this
  have hcap : ((('H' :: ("ockey-UID:".data ++ (' ' :: uid.data))).drop
      markerC.length).dropWhile jsWS).takeWhile (fun ch => !jsWS ch) = uid.data := by
    have hdrop : ('H' :: ("ockey-UID:".data ++ (' ' :: uid.data))).drop markerC.length
        = ' ' :: uid.data := by
      rw [← hx]
      exact List.drop_left _ _
    rw [hdrop]
    rw [List.dropWhile_cons, if_pos (by decide), hdropall]
    exact takeWhile_eq_self_of_all fun c hc => (List.all_eq_true.mp hws) c hc
  have hemp : uid.data.isEmpty = false := by
    have := (string_ne_empty_iff uid).mp hne
    simpa [List.isEmpty_iff] using this
  rw [hx, extractScan, hp]
  simp only [if_true, hcap, hemp]
  rfl

theorem extractScan_newline_cons {X : List Char} :
    extractScan ('\n' :: X) = extractScan X := by
  rw [extractScan]
  have hp : markerC.isPrefixOf ('\n' :: X) = false := by
    show ('H' :: "ockey-UID:".data).isPrefixOf ('\n' :: X) = false
    simp [List.isPrefixOf]
  rw [hp]
  simp

theorem stripTrailUID_no_newline :
    ∀ {l : List Char}, (∀ c ∈ l, c ≠ '\n') → stripTrailUID l = l := by
  intro l
  induction l with
  | nil => intro _; rfl
  | cons c cs ih =>
    intro h
    rw [stripTrailUID]
    have hp : markerNL.isPrefixOf (c :: cs) = false := by
      show ('\n' :: ('\n' :: markerC)).isPrefixOf (c :: cs) = false
      have : ('\n' == c) = false :=
        beq_eq_false_iff_ne.mpr (fun he => h c (List.mem_cons_self c cs) he.symm)
      simp [List.isPrefixOf, this]
    rw [hp]
    simp only [Bool.false_and, Bool.false_eq_true, if_false]
    rw [ih fun c' hc' => h c' (List.mem_cons_of_mem _ hc')]

theorem stripTrailUID_marker {uid : String}
    (hws : uid.data.all (fun c => !jsWS c) = true) :
    stripTrailUID (markerNL ++ (' ' :: uid.data)) = [] := by
  have hx : markerNL ++ (' ' :: uid.data) = '\n' :: ('\n' :: (markerC ++ (' ' :: uid.data))) := by
    rfl
  have hp : markerNL.isPrefixOf (markerNL ++ (' ' :: uid.data)) = true :=
    List.isPrefixOf_iff_prefix.mpr (List.prefix_append _ _)
  have hdrop : (markerNL ++ (' ' :: uid.data)).drop markerNL.length = ' ' :: uid.data :=
    List.drop_left _ _
  rw [hx] at hp hdrop
  rw [hx, stripTrailUID, hp, hdrop, noNL_space_uid hws]
  rfl

theorem markerC_no_newline : ∀ c ∈ markerC, c ≠ '\n' := by decide

theorem drop_ne_nil {D : List Char} {q : Nat} (hq : q < D.length) : D.drop q ≠ [] := by
  apply List.ne_nil_of_length_pos
  rw [List.length_drop]
  omega

theorem appliedDescription_data_truthy {h : SourceEvent} {s : String}
    (hd : h.description = some s) (hs : s ≠ "") :
    (appliedDescription h).data =
      trimChars s.data ++ ('\n' :: '\n' :: (markerC ++ (' ' :: h.uid.data))) := by
  have h1 : appliedDescription h = jsTrim s ++ "\n\n" ++ "Hockey-UID: " ++ h.uid := by
    rw [appliedDescription, hd]
    simp [truthyStr, hs]
  rw [h1]
  show (((jsTrim s ++ "\n\n") ++ "Hockey-UID: ") ++ h.uid).data = _
  simp only [String.data_append]
  show ((trimChars s.data ++ ['\n', '\n']) ++ (markerC ++ [' '])) ++ h.uid.data = _
  simp [List.append_assoc]

theorem appliedDescription_data_falsy {h : SourceEvent}
    (hd : truthyStr h.description = false) :
    (appliedDescription h).data = markerC ++ (' ' :: h.uid.data) := by
  have hgd : h.description.getD "" = "" := by
    cases hdd : h.description with
    | none => rfl
    | some s =>
      rw [hdd] at hd
      simp only [truthyStr, decide_eq_false_iff_not, not_not] at hd
      rw [hd]
      rfl
  have h1 : appliedDescription h = "" ++ "" ++ "Hockey-UID: " ++ h.uid := by
    rw [appliedDescription, hgd, hd]
    rfl
  rw [h1]
  show ((("" ++ "") ++ "Hockey-UID: ") ++ h.uid).data = _
  simp only [String.data_append]
  show (([] ++ []) ++ (markerC ++ [' '])) ++ h.uid.data = _
  simp [List.append_assoc]

theorem storedUID_createEventTarget {h : SourceEvent} (hwf : WF h) :
    storedUID (createEventTarget h) = some h.uid := by
  obtain ⟨hu1, hu2, hno⟩ := hwf
  have hext : extractScan (appliedDescription h).data = some h.uid := by
    by_cases ht : truthyStr h.description = true
    · obtain ⟨s, hd⟩ : ∃ s, h.description = some s := by
        cases hdd : h.description with
        | none => rw [hdd] at ht; simp [truthyStr] at ht
        | some s => exact ⟨s, rfl⟩
      have hs : s ≠ "" := by
        rw [hd] at ht
        simpa [truthyStr] using ht
      have hnoD : hasSubstr markerC (trimChars s.data) = false := by
        apply hasSubstr_not_mono (trimChars_infix_self _)
        rw [hd] at hno
        simpa using hno
      rw [appliedDescription_data_truthy hd hs]
      have hall : ∀ q, q < (trimChars s.data).length →
          markerC.isPrefixOf ((trimChars s.data).drop q ++
            ('\n' :: '\n' :: (markerC ++ (' ' :: h.uid.data)))) = false := by
        intro q hq
        exact noPrefix_markerC_mid (drop_ne_nil hq)
          (hasSubstr_not_mono (List.drop_suffix q _).isInfix hnoD)
      rw [extractScan_append (trimChars s.data) hall]
      rw [extractScan_newline_cons, extractScan_newline_cons]
      exact extractScan_marker _ hu1 hu2
    · rw [appliedDescription_data_falsy (by simpa using ht)]
      exact extractScan_marker _ hu1 hu2
  have hne' : appliedDescription h ≠ "" := by
    rw [string_ne_empty_iff]
    intro hnil
    rw [hnil] at hext
    simp [extractScan] at hext
  rw [storedUID]
  have hfield : (createEventTarget h).description = appliedDescription h := rfl
  rw [hfield, extractUID, if_neg hne', hext, truthyUID, if_neg hu1]

theorem stripBoth_appliedDescription {h : SourceEvent} (hwf : WF h) :
    jsTrim (String.mk (stripLeadUID (stripTrailUID (appliedDescription h).data)))
      = jsTrim (h.description.getD "") := by
  obtain ⟨hu1, hu2, hno⟩ := hwf
  by_cases ht : truthyStr h.description = true
  · obtain ⟨s, hd⟩ : ∃ s, h.description = some s := by
      cases hdd : h.description with
      | none => rw [hdd] at ht; simp [truthyStr] at ht
      | some s => exact ⟨s, rfl⟩
    have hs : s ≠ "" := by
      rw [hd] at ht
      simpa [truthyStr] using ht
    have hnoD : hasSubstr markerC (trimChars s.data) = false := by
      apply hasSubstr_not_mono (trimChars_infix_self _)
      rw [hd] at hno
      simpa using hno
    rw [appliedDescription_data_truthy hd hs]
    have hall : ∀ q, q < (trimChars s.data).length →
        markerNL.isPrefixOf ((trimChars s.data).drop q ++
          ('\n' :: '\n' :: (markerC ++ (' ' :: h.uid.data)))) = false := by
      intro q hq
      exact noPrefix_markerNL_mid (drop_ne_nil hq)
        (hasSubstr_not_mono (List.drop_suffix q _).isInfix hnoD)
    rw [stripTrailUID_append (trimChars s.data) hall]
    have hS0 : ('\n' :: '\n' :: (markerC ++ (' ' :: h.uid.data)))
        = markerNL ++ (' ' :: h.uid.data) := rfl
    rw [hS0, stripTrailUID_marker hu2, List.append_nil]
    have hlead : stripLeadUID (trimChars s.data) = trimChars s.data := by
      rw [stripLeadUID, if_neg]
      intro hcond
      have hpref := (Bool.and_eq_true _ _).mp hcond
      exact absurd (hasSubstr_of_leading (List.isPrefixOf_iff_prefix.mp hpref.1))
        (by simp [hnoD])
    rw [hlead, hd]
    show String.mk (trimChars (trimChars s.data)) = String.mk (trimChars s.data)
    rw [trimChars_idem]
  · have hfd : truthyStr h.description = false := by simpa using ht
    rw [appliedDescription_data_falsy hfd]
    have hstrip : stripTrailUID (markerC ++ (' ' :: h.uid.data))
        = markerC ++ (' ' :: h.uid.data) := by
      apply stripTrailUID_no_newline
      intro c hc
      rcases List.mem_append.mp hc with hm | hm
      · exact markerC_no_newline c hm
      · rcases List.mem_cons.mp hm with rfl | hm'
        · decide
        · intro he
          have := (List.all_eq_true.mp hu2) c hm'
          rw [he] at this
          simp [jsWS] at this
    rw [hstrip]
    have hlead : stripLeadUID (markerC ++ (' ' :: h.uid.data)) = [] := by
      rw [stripLeadUID, if_pos]
      apply (Bool.and_eq_true _ _).mpr
      constructor
      · exact List.isPrefixOf_iff_prefix.mpr (List.prefix_append _ _)
      · rw [List.drop_left]
        exact noNL_space_uid hu2
    rw [hlead]
    have hgd : h.description.getD "" = "" := by
      cases hdd : h.description with
      | none => rfl
      | some s =>
        rw [hdd] at hfd
        simp only [truthyStr, decide_eq_false_iff_not, not_not] at hfd
        rw [hfd]
        rfl
    rw [hgd]

theorem needsUpdate_updateEventTarget {h : SourceEvent} (hwf : WF h) :
    needsUpdate (updateEventTarget h) h = false := by
  have hdesc := stripBoth_appliedDescription hwf
  simp [needsUpdate, updateEventTarget, hdesc]

theorem updateEventTarget_eq_create (h : SourceEvent) :
    updateEventTarget h = createEventTarget h := rfl

theorem needsUpdate_createEventTarget {h : SourceEvent} (hwf : WF h) :
    needsUpdate (createEventTarget h) h = false := by
  rw [← updateEventTarget_eq_create]
  exact needsUpdate_updateEventTarget hwf

/-! ## Idempotence of `processEvents` -/

theorem lastIdx_of_lastVal (f : TargetEvent → Option String) {l : List TargetEvent}
    {u : String} {e : TargetEvent} (h : lastVal f l u = some e) :
    ∃ k, lastIdx f l u = some k ∧ l.getD k dummyTarget = e := by
  cases hI : lastIdx f l u with
  | none =>
    have : lastVal f l u = none := (lastVal_none f).mpr ((lastIdx_none f).mp hI)
    rw [this] at h
    cases h
  | some k =>
    have := lastVal_eq_getD f hI
    rw [this] at h
    exact ⟨k, rfl, Option.some.inj h⟩

theorem find?_eq_some_of_uniq {p : SourceEvent → Bool} :
    ∀ {hs : List SourceEvent} {h : SourceEvent}, h ∈ hs → p h = true →
      (∀ h' ∈ hs, p h' = true → h' = h) → hs.find? p = some h := by
  intro hs
  induction hs with
  | nil => intro h hmem; simp at hmem
  | cons a rest ih =>
    intro h hmem hp huniq
    by_cases hpa : p a = true
    · have : a = h := huniq a (List.mem_cons_self _ _) hpa
      subst this
      simp [List.find?_cons, hpa]
    · have hpaf : p a = false := by simpa using hpa
      rw [List.find?_cons]
      rw [hpaf]
      have hmem' : h ∈ rest := by
        rcases List.mem_cons.mp hmem with rfl | hm
        · exact absurd hp hpa
        · exact hm
      exact ih hmem' hp fun h' hm' hp' => huniq h' (List.mem_cons_of_mem _ hm') hp'

theorem uid_inj {hs : List SourceEvent} (hnd : (hs.map SourceEvent.uid).Nodup)
    {h1 h2 : SourceEvent} (hm1 : h1 ∈ hs) (hm2 : h2 ∈ hs) (he : h1.uid = h2.uid) :
    h1 = h2 :=
  List.inj_on_of_nodup_map hnd hm1 hm2 he

theorem hasUID_of_mem {hs : List SourceEvent} {h : SourceEvent} (hm : h ∈ hs) :
    hasUID hs h.uid = true := by
  rw [hasUID, List.any_eq_true]
  exact ⟨h, hm, by simp⟩

theorem runPhase1_all_unchanged {ts' : List TargetEvent} :
    ∀ (hs : List SourceEvent),
      (∀ h ∈ hs, ∃ k, lastIdx storedUID ts' h.uid = some k ∧
        needsUpdate (ts'.getD k dummyTarget) h = false) →
      ∀ st : Phase1State, st.arr = ts' →
        hs.foldl (phase1Step ts') st = { st with unchanged := st.unchanged + hs.length } := by
  intro hs
  induction hs with
  | nil => intro _ st _; simp
  | cons h hs ih =>
    intro hall st harr
    obtain ⟨k, hk, hnu⟩ := hall h (List.mem_cons_self _ _)
    have hstep : phase1Step ts' st h = { st with unchanged := st.unchanged + 1 } := by
      rw [← harr] at hnu
      simp only [phase1Step, hk, hnu, Bool.false_eq_true, if_false]
    rw [List.foldl_cons, hstep,
      ih (fun h' hm => hall h' (List.mem_cons_of_mem _ hm))
        { st with unchanged := st.unchanged + 1 } (by simpa using harr)]
    dsimp only
    have hn : st.unchanged + 1 + hs.length = st.unchanged + (h :: hs).length := by
      simp [List.length_cons]
      omega
    rw [hn]

theorem removePhase_all_kept {hs : List SourceEvent} :
    ∀ {l : List TargetEvent}, (∀ t ∈ l, keepTarget hs t = true) →
      removePhase hs l = (l, 0) := by
  intro l
  induction l with
  | nil => intro _; rfl
  | cons t ts ih =>
    intro hall
    rw [removePhase, ih fun t' ht' => hall t' (List.mem_cons_of_mem _ ht'),
      if_pos (hall t (List.mem_cons_self _ _))]

/-- Unfolding of `processEvents` into its two phases. -/
theorem processEvents_def (hs : List SourceEvent) (ts : List TargetEvent) :
    processEvents hs ts =
      ({ added := (runPhase1 hs ts).added, updated := (runPhase1 hs ts).updated,
         removed := (removePhase hs (runPhase1 hs ts).arr).2,
         unchanged := (runPhase1 hs ts).unchanged },
        (removePhase hs (runPhase1 hs ts).arr).1 ++ (runPhase1 hs ts).created) := rfl

/-- C2 (amended): idempotence of the clean-version reconciler: apply the mutations
`processEvents` emits on (`hs`, `ts`) — in-place updates, deletions,
creations appended — and reconcile again; the second run classifies every
source event as unchanged and performs no mutation, provided the source
events have pairwise-distinct uids, nonempty whitespace-free uids, and
descriptions that do not contain the marker text `Hockey-UID:`. -/
theorem processEvents_idempotent (hs : List SourceEvent) (ts : List TargetEvent)
    (hnd : (hs.map SourceEvent.uid).Nodup) (hwf : ∀ h ∈ hs, WF h) :
    processEvents hs (processEvents hs ts).2 =
      ({ added := 0, updated := 0, removed := 0, unchanged := hs.length },
        (processEvents hs ts).2) := by
  have hlen : (runPhase1 hs ts).arr.length = ts.length := phase1_foldl_length ts hs _
  obtain ⟨harr, hcr⟩ := phase1_foldl_char ts hs hnd
    { arr := ts, added := 0, updated := 0, unchanged := 0, created := [] } rfl
  dsimp only at harr hcr
  rw [← runPhase1] at harr hcr
  have hcr' : (runPhase1 hs ts).created
      = (hs.filter (missesMap ts)).map createEventTarget := by
    rw [hcr, List.nil_append]
  have hts' : (processEvents hs ts).2
      = ((runPhase1 hs ts).arr.filter (keepTarget hs)) ++ (runPhase1 hs ts).created := by
    rw [processEvents_def, removePhase_eq]
  -- every element of the new snapshot survives the next delete phase
  have hkeepAll : ∀ t ∈ (processEvents hs ts).2, keepTarget hs t = true := by
    intro t hmem
    rw [hts'] at hmem
    rcases List.mem_append.mp hmem with hm | hm
    · exact List.of_mem_filter hm
    · rw [hcr'] at hm
      obtain ⟨h'', hm'', rfl⟩ := List.mem_map.mp hm
      have hwf'' := hwf h'' (List.mem_of_mem_filter hm'')
      rw [keepTarget, storedUID_createEventTarget hwf'']
      exact hasUID_of_mem (List.mem_of_mem_filter hm'')
  -- every source event finds its (unchanged) match in the new snapshot
  have hall : ∀ h ∈ hs, ∃ k,
      lastIdx storedUID (processEvents hs ts).2 h.uid = some k ∧
      needsUpdate ((processEvents hs ts).2.getD k dummyTarget) h = false := by
    intro h hmem
    have hwfh := hwf h hmem
    cases hL : lastIdx storedUID ts h.uid with
    | none =>
      -- created in run 1
      have hmemf : h ∈ hs.filter (missesMap ts) :=
        List.mem_filter.mpr ⟨hmem, by simp [missesMap, hL]⟩
      have hmemc : createEventTarget h ∈ (runPhase1 hs ts).created := by
        rw [hcr']
        exact List.mem_map_of_mem _ hmemf
      have hval : lastVal storedUID (runPhase1 hs ts).created h.uid
          = some (createEventTarget h) := by
        apply lastVal_uniq _ hmemc (storedUID_createEventTarget hwfh)
        intro t' ht' hst'
        rw [hcr'] at ht'
        obtain ⟨h'', hm'', rfl⟩ := List.mem_map.mp ht'
        have := storedUID_createEventTarget (hwf h'' (List.mem_of_mem_filter hm''))
        rw [this] at hst'
        have : h'' = h := uid_inj hnd (List.mem_of_mem_filter hm'') hmem
          (Option.some.inj hst')
        rw [this]
      have hvalts' : lastVal storedUID (processEvents hs ts).2 h.uid
          = some (createEventTarget h) := by
        rw [hts', lastVal_append, hval]
      obtain ⟨k, hk, hke⟩ := lastIdx_of_lastVal storedUID hvalts'
      exact ⟨k, hk, by rw [hke]; exact needsUpdate_createEventTarget hwfh⟩
    | some i =>
      -- matched in run 1: the element at slot i of the mutated array
      have hi := lastIdx_sound storedUID hL
      have hfindi : hs.find? (hitsIdx ts i) = some h := by
        apply find?_eq_some_of_uniq hmem (by simp [hitsIdx, hL])
        intro h' hm' hp'
        simp only [hitsIdx, beq_iff_eq] at hp'
        have hs' := lastIdx_sound storedUID hp'
        have : h'.uid = h.uid := by
          have h2 := hi.2
          rw [hs'.2] at h2
          exact Option.some.inj h2
        exact uid_inj hnd hm' hmem this
      have he : (runPhase1 hs ts).arr.getD i dummyTarget =
          if needsUpdate (ts.getD i dummyTarget) h then updateEventTarget h
          else ts.getD i dummyTarget := by
        have := harr i
        rw [hfindi] at this
        simpa using this
      have hstored_e : storedUID ((runPhase1 hs ts).arr.getD i dummyTarget)
          = some h.uid := by
        rw [he]
        by_cases hn : needsUpdate (ts.getD i dummyTarget) h
        · rw [if_pos hn, updateEventTarget_eq_create]
          exact storedUID_createEventTarget hwfh
        · rw [if_neg hn]
          exact hi.2
      have hnu_e : needsUpdate ((runPhase1 hs ts).arr.getD i dummyTarget) h = false := by
        rw [he]
        by_cases hn : needsUpdate (ts.getD i dummyTarget) h
        · rw [if_pos hn]
          exact needsUpdate_updateEventTarget hwfh
        · rw [if_neg hn]
          simpa using hn
      have hafter : ∀ j, i < j → j < (runPhase1 hs ts).arr.length →
          storedUID ((runPhase1 hs ts).arr.getD j dummyTarget) ≠ some h.uid := by
        intro j hij hjl
        have hjts : j < ts.length := hlen ▸ hjl
        have hj := harr j
        cases hf : hs.find? (hitsIdx ts j) with
        | some h' =>
          rw [hf] at hj
          dsimp only at hj
          have hm' : h' ∈ hs := List.mem_of_find?_eq_some hf
          have hp' : lastIdx storedUID ts h'.uid = some j := by
            have := List.find?_some hf
            simpa [hitsIdx] using this
          have hne' : h' ≠ h := by
            intro heq
            rw [heq, hL] at hp'
            have := Option.some.inj hp'
            omega
          have huidne : h'.uid ≠ h.uid := fun hequ =>
            hne' (uid_inj hnd hm' hmem hequ)
          rw [hj]
          by_cases hn : needsUpdate (ts.getD j dummyTarget) h'
          · rw [if_pos hn, updateEventTarget_eq_create,
              storedUID_createEventTarget (hwf h' hm')]
            simp [huidne]
          · rw [if_neg hn]
            rw [(lastIdx_sound storedUID hp').2]
            simp [huidne]
        | none =>
          rw [hf] at hj
          dsimp only at hj
          rw [hj]
          exact lastIdx_after storedUID hL j hij hjts
      have hIdxArr : lastIdx storedUID (runPhase1 hs ts).arr h.uid = some i :=
        lastIdx_complete storedUID (hlen ▸ hi.1) hstored_e hafter
      have hvalArr : lastVal storedUID (runPhase1 hs ts).arr h.uid
          = some ((runPhase1 hs ts).arr.getD i dummyTarget) :=
        lastVal_eq_getD storedUID hIdxArr
      have hkeep_e : keepTarget hs ((runPhase1 hs ts).arr.getD i dummyTarget) = true := by
        rw [keepTarget, hstored_e]
        exact hasUID_of_mem hmem
      have hvalFil : lastVal storedUID ((runPhase1 hs ts).arr.filter (keepTarget hs)) h.uid
          = some ((runPhase1 hs ts).arr.getD i dummyTarget) :=
        lastVal_filter storedUID (keepTarget hs) hvalArr hkeep_e
      have hvalCr : lastVal storedUID (runPhase1 hs ts).created h.uid = none := by
        rw [lastVal_none]
        intro t' ht'
        rw [hcr'] at ht'
        obtain ⟨h'', hm'', rfl⟩ := List.mem_map.mp ht'
        rw [storedUID_createEventTarget (hwf h'' (List.mem_of_mem_filter hm''))]
        intro hequ
        have : h'' = h := uid_inj hnd (List.mem_of_mem_filter hm'') hmem
          (Option.some.inj hequ)
        subst this
        have := List.mem_filter.mp hm''
        simp [missesMap, hL] at this
      have hvalts' : lastVal storedUID (processEvents hs ts).2 h.uid
          = some ((runPhase1 hs ts).arr.getD i dummyTarget) := by
        rw [hts', lastVal_append, hvalCr, hvalFil]
      obtain ⟨k, hk, hke⟩ := lastIdx_of_lastVal storedUID hvalts'
      exact ⟨k, hk, by rw [hke]; exact hnu_e⟩
  -- run 2
  have hrun2 : runPhase1 hs (processEvents hs ts).2 =
      { arr := (processEvents hs ts).2, added := 0, updated := 0,
        unchanged := hs.length, created := [] } := by
    rw [runPhase1]
    rw [runPhase1_all_unchanged hs hall
      { arr := (processEvents hs ts).2, added := 0, updated := 0,
        unchanged := 0, created := [] } rfl]
    simp
  rw [processEvents_def hs (processEvents hs ts).2, hrun2]
  dsimp only
  rw [removePhase_all_kept hkeepAll]
  simp

/-! ## Remaining facts about the clean-version reconciler -/

theorem truthyUID_some {o : Option String} {u : String} (h : truthyUID o = some u) :
    o = some u := by
  cases o with
  | none => cases h
  | some v =>
    rw [truthyUID] at h
    by_cases hv : v = ""
    · rw [if_pos hv] at h; cases h
    · rw [if_neg hv] at h; exact h

/-- C10: a target event from whose description no uid can be extracted is
never deleted by `processEvents`: it survives, unmodified, into the
resulting calendar state, whatever the source list is. -/
theorem claimC10_unmarked_survives (hs : List SourceEvent) (ts : List TargetEvent)
    (t : TargetEvent) (hmem : t ∈ ts) (hnone : extractUID t.description = none) :
    t ∈ (processEvents hs ts).2 := by
  have hstored : storedUID t = none := by rw [storedUID, hnone]; rfl
  obtain ⟨j, hj, hget⟩ := mem_getD hmem
  have huntouched : ∀ h ∈ hs, lastIdx storedUID ts h.uid ≠ some j := by
    intro h _ hL
    have := (lastIdx_sound storedUID hL).2
    rw [hget, hstored] at this
    cases this
  have harrj : (runPhase1 hs ts).arr.getD j dummyTarget = t := by
    rw [runPhase1, phase1_foldl_untouched ts hs huntouched]
    exact hget
  have hlen : (runPhase1 hs ts).arr.length = ts.length := phase1_foldl_length ts hs _
  have hmem' : t ∈ (runPhase1 hs ts).arr := by
    rw [← harrj]
    exact getD_mem_of_lt (hlen ▸ hj)
  have hkeep : keepTarget hs t = true := by rw [keepTarget, hstored]
  rw [processEvents_def, removePhase_eq]
  exact List.mem_append_left _ (List.mem_filter.mpr ⟨hmem', hkeep⟩)

/-- C7: with title, location and description in agreement, `needsUpdate` of
the clean version is exactly the test "start or end epoch differs by
strictly more than 300000 ms": a difference of exactly 300000 ms (the
5-minute tolerance, i.e. the change threshold 300001 ms minus one) reports
unchanged, a difference at or above 300001 ms reports changed. -/
theorem claimC7_tolerance_boundary (t : TargetEvent) (h : SourceEvent)
    (htitle : t.title = prefixTag ++ h.title)
    (hloc : jsTrim (jsLower t.location) = jsTrim (jsLower (h.location.getD "")))
    (hdesc : jsTrim (String.mk (stripLeadUID (stripTrailUID t.description.data)))
      = jsTrim (h.description.getD "")) :
    needsUpdate t h =
      (decide (300000 < (t.startTime - h.startTime).natAbs) ||
        decide (300000 < (t.endTime - h.endTime.getD (h.startTime + 7200000)).natAbs)) := by
  simp [needsUpdate, htitle, hloc, hdesc]

/-- C8: location comparison in the clean version's change detector is
case-insensitive and trimmed: a pair agreeing on everything else whose
locations agree up to case and surrounding whitespace is reported
unchanged, and a run of `processEvents` on that pair classifies it
unchanged with no mutation. -/
theorem claimC8_location_case_insensitive (t : TargetEvent) (h : SourceEvent)
    (htitle : t.title = prefixTag ++ h.title)
    (hstart : t.startTime = h.startTime)
    (hend : t.endTime = h.endTime.getD (h.startTime + 7200000))
    (hdesc : jsTrim (String.mk (stripLeadUID (stripTrailUID t.description.data)))
      = jsTrim (h.description.getD ""))
    (hloc : jsTrim (jsLower t.location) = jsTrim (jsLower (h.location.getD "")))
    (huid : storedUID t = some h.uid) :
    needsUpdate t h = false ∧
      processEvents [h] [t] =
        ({ added := 0, updated := 0, removed := 0, unchanged := 1 }, [t]) := by
  have hnu : needsUpdate t h = false := by
    simp [needsUpdate, htitle, hstart, hend, hloc, hdesc]
  refine ⟨hnu, ?_⟩
  have hidx : lastIdx storedUID [t] h.uid = some 0 := by
    show (match lastIdx storedUID [] h.uid with
      | some i => some (i + 1)
      | none => if storedUID t = some h.uid then some 0 else none) = some 0
    rw [show lastIdx storedUID [] h.uid = none from rfl, if_pos huid]
  have hfold : runPhase1 [h] [t] =
      { arr := [t], added := 0, updated := 0, unchanged := 1, created := [] } := by
    rw [runPhase1, List.foldl_cons, List.foldl_nil]
    simp only [phase1Step, hidx]
    rw [show ([t] : List TargetEvent).getD 0 dummyTarget = t from rfl, hnu]
    rfl
  have hkeep : keepTarget [h] t = true := by
    rw [keepTarget, huid]
    simp [hasUID]
  rw [processEvents_def, hfold]
  dsimp only
  rw [removePhase_all_kept (by intro t' ht'; rw [List.mem_singleton.mp ht']; exact hkeep)]
  simp

/-- C4: `createStableUID` depends only on the (title, startTime, location)
triple: two raw events agreeing on those three fields receive the same
identity string, whatever their other fields are. -/
theorem claimC4_stableUID_deterministic (e1 e2 : RawEvent)
    (ht : e1.title = e2.title) (hst : e1.startTime = e2.startTime)
    (hl : e1.location = e2.location) :
    createStableUID e1 = createStableUID e2 := by
  rw [createStableUID, createStableUID, ht, hst, hl]

/-- The concrete target of the C1 failing run: one marked event in the
family calendar. -/
def tC1 : TargetEvent :=
  { title := "[Hockey] Game", startTime := 0, endTime := 7200000,
    location := "", description := "Hockey-UID: benchapp-stable-1" }

/-- C1 (code bug): `fetchHockeyEvents` swallows a fetch failure and returns
the empty list — indistinguishable from a feed that truly has zero events —
so `syncHockeyCalendar` proceeds into the delete phase and removes every
marked target event.  With one marked target, a run whose fetch throws
deletes it (`removed = 1`, final calendar empty), contradicting the claim
that no target event is deleted on a failed load. -/
theorem claimC1_fetch_failure_mass_deletion :
    fetchHockeyEvents none = fetchHockeyEvents (some []) ∧
      (syncHockeyCalendar none [tC1]).1.removed = 1 ∧
      (syncHockeyCalendar none [tC1]).2 = [] := by
  refine ⟨rfl, ?_, ?_⟩ <;> decide

/-! ## Lemmas about `processEventsWithStableUIDs` (stable-UID version) -/

theorem removePhaseS_eq (hs : List SourceEvent) :
    ∀ l : List TargetEvent,
      removePhaseS hs l =
        (l.filter (fun t => !deletableS hs t), (l.filter (deletableS hs)).length) := by
  intro l
  induction l with
  | nil => simp [removePhaseS]
  | cons t ts ih =>
    rw [removePhaseS, ih]
    by_cases h : deletableS hs t <;> simp [h, List.filter_cons]

/-- Unfolding of `processEventsWithStableUIDs` into its two phases. -/
theorem processEventsWithStableUIDs_def (hs : List SourceEvent) (ts : List TargetEvent) :
    processEventsWithStableUIDs hs ts =
      ({ added := (runPhase1S hs ts).added, updated := (runPhase1S hs ts).updated,
         removed := (removePhaseS hs (runPhase1S hs ts).arr).2,
         unchanged := (runPhase1S hs ts).unchanged,
         migrated := (runPhase1S hs ts).migrated },
        (removePhaseS hs (runPhase1S hs ts).arr).1 ++ (runPhase1S hs ts).created,
        (runPhase1S hs ts).decisions) := rfl

theorem phase1S_foldl_length (ts0 : List TargetEvent) :
    ∀ (hs : List SourceEvent) (st : Phase1SState),
      (hs.foldl (phase1SStep ts0) st).arr.length = st.arr.length := by
  intro hs
  induction hs with
  | nil => intro st; simp
  | cons h hs ih =>
    intro st
    rw [List.foldl_cons, ih]
    cases hL : lastIdx storedUIDS ts0 h.uid with
    | some i =>
      by_cases hn : needsUpdateS (st.arr.getD i dummyTarget) h
      · simp only [phase1SStep, hL, if_pos hn]
        simp
      · simp only [phase1SStep, hL, if_neg hn]
    | none =>
      cases hC : lastIdx (fun t => some (targetContentKey t)) ts0 (sourceContentKey h) with
      | some i =>
        simp only [phase1SStep, hL, hC]
        simp
      | none => simp only [phase1SStep, hL, hC]

theorem phase1S_foldl_counts (ts0 : List TargetEvent) :
    ∀ (hs : List SourceEvent) (st : Phase1SState),
      ((hs.foldl (phase1SStep ts0) st).added + (hs.foldl (phase1SStep ts0) st).updated +
        (hs.foldl (phase1SStep ts0) st).migrated + (hs.foldl (phase1SStep ts0) st).unchanged
        = st.added + st.updated + st.migrated + st.unchanged + hs.length)
      ∧ (hs.foldl (phase1SStep ts0) st).created.length + st.added
          = (hs.foldl (phase1SStep ts0) st).added + st.created.length := by
  intro hs
  induction hs with
  | nil => intro st; constructor <;> simp <;> omega
  | cons h hs ih =>
    intro st
    rw [List.foldl_cons]
    have hgen : ∀ st1 : Phase1SState,
        (st1.added + st1.updated + st1.migrated + st1.unchanged
          = st.added + st.updated + st.migrated + st.unchanged + 1) →
        st1.created.length + st.added = st1.added + st.created.length →
        ((hs.foldl (phase1SStep ts0) st1).added + (hs.foldl (phase1SStep ts0) st1).updated +
          (hs.foldl (phase1SStep ts0) st1).migrated + (hs.foldl (phase1SStep ts0) st1).unchanged
          = st.added + st.updated + st.migrated + st.unchanged + (h :: hs).length)
        ∧ (hs.foldl (phase1SStep ts0) st1).created.length + st.added
            = (hs.foldl (phase1SStep ts0) st1).added + st.created.length := by
      intro st1 hc hcr
      obtain ⟨ic, icr⟩ := ih st1
      constructor
      · rw [ic, hc, List.length_cons]
        omega
      · omega
    cases hL : lastIdx storedUIDS ts0 h.uid with
    | some i =>
      by_cases hn : needsUpdateS (st.arr.getD i dummyTarget) h
      · rw [show phase1SStep ts0 st h = { st with
            arr := st.arr.set i (updateEventTarget h)
            updated := st.updated + 1
            decisions := st.decisions ++ [DecisionS.update i h] } from by
          simp only [phase1SStep, hL, if_pos hn]]
        exact hgen _ (by dsimp only; omega) (by dsimp only; omega)
      · rw [show phase1SStep ts0 st h = { st with
            unchanged := st.unchanged + 1
            decisions := st.decisions ++ [DecisionS.unchanged i h] } from by
          simp only [phase1SStep, hL, if_neg hn]]
        exact hgen _ (by dsimp only; omega) (by dsimp only; omega)
    | none =>
      cases hC : lastIdx (fun t => some (targetContentKey t)) ts0 (sourceContentKey h) with
      | some i =>
        rw [show phase1SStep ts0 st h = { st with
            arr := st.arr.set i (updateEventTarget h)
            migrated := st.migrated + 1
            decisions := st.decisions ++ [DecisionS.migrate i h] } from by
          simp only [phase1SStep, hL, hC]]
        exact hgen _ (by dsimp only; omega) (by dsimp only; omega)
      | none =>
        rw [show phase1SStep ts0 st h = { st with
            added := st.added + 1
            created := st.created ++ [createEventTarget h]
            decisions := st.decisions ++ [DecisionS.create h] } from by
          simp only [phase1SStep, hL, hC]]
        exact hgen _ (by dsimp only; omega) (by dsimp only; simp; omega)

theorem removePhaseS_partition (hs : List SourceEvent) :
    ∀ l : List TargetEvent,
      (removePhaseS hs l).2 + (removePhaseS hs l).1.length = l.length := by
  intro l
  induction l with
  | nil => rfl
  | cons t ts ih =>
    rw [removePhaseS]
    by_cases h : deletableS hs t <;> simp [h] <;> omega

/-- C6 (amended): the four source-side classifications of
`processEventsWithStableUIDs` partition the source events — their counts sum
to the number of source events, each source event being counted exactly
once — and the target events are partitioned into the deleted ones (counted
once each in `removed`) and the survivors: `removed` plus the number of
surviving pre-existing events equals the number of target events.  (A single
*target* event can, however, be counted under more than one source-side
classification when several source events match it; see the
counterexample.) -/
theorem claimC6_classification_counts (hs : List SourceEvent) (ts : List TargetEvent) :
    ((processEventsWithStableUIDs hs ts).1.added + (processEventsWithStableUIDs hs ts).1.updated +
      (processEventsWithStableUIDs hs ts).1.migrated +
      (processEventsWithStableUIDs hs ts).1.unchanged = hs.length) ∧
    ((processEventsWithStableUIDs hs ts).1.removed +
      (processEventsWithStableUIDs hs ts).2.1.length
      = ts.length + (processEventsWithStableUIDs hs ts).1.added) := by
  obtain ⟨hc, hcr⟩ := phase1S_foldl_counts ts hs
    { arr := ts, added := 0, updated := 0, migrated := 0, unchanged := 0,
      created := [], decisions := [] }
  dsimp only at hc hcr
  rw [← runPhase1S] at hc hcr
  have hlen : (runPhase1S hs ts).arr.length = ts.length := phase1S_foldl_length ts hs _
  have hpart := removePhaseS_partition hs (runPhase1S hs ts).arr
  rw [processEventsWithStableUIDs_def]
  dsimp only
  constructor
  · simpa using hc
  · rw [List.length_append]
    simp only [List.length_nil] at hcr
    omega

theorem targetContentKey_updateEventTarget (h : SourceEvent) :
    targetContentKey (updateEventTarget h) = sourceContentKey h := by
  rw [targetContentKey, sourceContentKey, updateEventTarget]
  dsimp only
  have hrep : replaceFirst prefixTag.data (prefixTag ++ h.title).data = h.title.data := by
    have hdata : (prefixTag ++ h.title).data = '[' :: ("Hockey] ".data ++ h.title.data) := by
      rw [String.data_append]
      rfl
    have hpre : prefixTag.data.isPrefixOf ('[' :: ("Hockey] ".data ++ h.title.data)) = true := by
      have he : '[' :: ("Hockey] ".data ++ h.title.data) = prefixTag.data ++ h.title.data := rfl
      rw [he]
      exact List.isPrefixOf_iff_prefix.mpr (List.prefix_append _ _)
    rw [hdata, replaceFirst, hpre]
    simp only [if_true]
    show (prefixTag.data ++ h.title.data).drop prefixTag.data.length = h.title.data
    exact List.drop_left _ _
  rw [hrep]

theorem mapValues_mem : ∀ {hs : List SourceEvent} {h0 : SourceEvent}, h0 ∈ hs →
    (∀ h ∈ hs, h.uid = h0.uid → h = h0) → h0 ∈ mapValues hs := by
  intro hs
  induction hs with
  | nil => intro h0 hm; cases hm
  | cons a rest ih =>
    intro h0 hm huniq
    rw [mapValues]
    by_cases hany : rest.any (fun h2 => h2.uid = a.uid) = true
    · rw [if_pos hany]
      rcases List.mem_cons.mp hm with rfl | hmr
      · obtain ⟨h2, hm2, he2⟩ := List.any_eq_true.mp hany
        have h2e : h2 = h0 := huniq h2 (List.mem_cons_of_mem _ hm2) (by simpa using he2)
        subst h2e
        exact ih hm2 fun h hm' he' => huniq h (List.mem_cons_of_mem _ hm') he'
      · exact ih hmr fun h hm' he' => huniq h (List.mem_cons_of_mem _ hm') he'
    · rw [if_neg hany]
      rcases List.mem_cons.mp hm with rfl | hmr
      · exact List.mem_cons_self _ _
      · exact List.mem_cons_of_mem _ (ih hmr fun h hm' he' => huniq h (List.mem_cons_of_mem _ hm') he')

theorem phase1SStep_migrate {ts : List TargetEvent} {h0 : SourceEvent} {j : Nat}
    (huidnone : lastIdx storedUIDS ts h0.uid = none)
    (hcontent : lastIdx (fun t' => some (targetContentKey t')) ts (sourceContentKey h0) = some j)
    (st : Phase1SState) :
    phase1SStep ts st h0 =
      { st with
        arr := st.arr.set j (updateEventTarget h0)
        migrated := st.migrated + 1
        decisions := st.decisions ++ [DecisionS.migrate j h0] } := by
  simp only [phase1SStep, huidnone, hcontent]

theorem phase1S_post_preserves (ts : List TargetEvent) (h0 : SourceEvent) (j : Nat)
    (huidnone : lastIdx storedUIDS ts h0.uid = none)
    (hcontent : lastIdx (fun t' => some (targetContentKey t')) ts (sourceContentKey h0) = some j) :
    ∀ (l : List SourceEvent),
      (∀ h ∈ l, h = h0 ∨ (lastIdx storedUIDS ts h.uid ≠ some j ∧
        lastIdx (fun t' => some (targetContentKey t')) ts (sourceContentKey h) ≠ some j)) →
      ∀ st : Phase1SState, st.arr.getD j dummyTarget = updateEventTarget h0 →
        j < st.arr.length →
        (l.foldl (phase1SStep ts) st).arr.getD j dummyTarget = updateEventTarget h0 := by
  intro l
  induction l with
  | nil => intro _ st hst _; simpa using hst
  | cons h rest ih =>
    intro hall st hst hjlt
    rw [List.foldl_cons]
    rcases hall h (List.mem_cons_self _ _) with rfl | ⟨hnu, hnc⟩
    · rw [phase1SStep_migrate huidnone hcontent]
      apply ih (fun h' hm' => hall h' (List.mem_cons_of_mem _ hm'))
      · dsimp only
        simp [List.getD, List.getElem?_set_self hjlt]
      · dsimp only
        simpa using hjlt
    · cases hL : lastIdx storedUIDS ts h.uid with
      | some i =>
        have hij : i ≠ j := fun he => hnu (he ▸ hL)
        by_cases hn : needsUpdateS (st.arr.getD i dummyTarget) h
        · rw [show phase1SStep ts st h = { st with
              arr := st.arr.set i (updateEventTarget h)
              updated := st.updated + 1
              decisions := st.decisions ++ [DecisionS.update i h] } from by
            simp only [phase1SStep, hL, if_pos hn]]
          apply ih (fun h' hm' => hall h' (List.mem_cons_of_mem _ hm'))
          · dsimp only
            simp only [List.getD, List.get?_eq_getElem?]
            rw [List.getElem?_set_ne hij]
            simpa [List.getD, List.get?_eq_getElem?] using hst
          · dsimp only
            simpa using hjlt
        · rw [show phase1SStep ts st h = { st with
              unchanged := st.unchanged + 1
              decisions := st.decisions ++ [DecisionS.unchanged i h] } from by
            simp only [phase1SStep, hL, if_neg hn]]
          exact ih (fun h' hm' => hall h' (List.mem_cons_of_mem _ hm')) _ hst hjlt
      | none =>
        cases hC : lastIdx (fun t' => some (targetContentKey t')) ts (sourceContentKey h) with
        | some i =>
          have hij : i ≠ j := fun he => hnc (he ▸ hC)
          rw [show phase1SStep ts st h = { st with
              arr := st.arr.set i (updateEventTarget h)
              migrated := st.migrated + 1
              decisions := st.decisions ++ [DecisionS.migrate i h] } from by
            simp only [phase1SStep, hL, hC]]
          apply ih (fun h' hm' => hall h' (List.mem_cons_of_mem _ hm'))
          · dsimp only
            simp only [List.getD, List.get?_eq_getElem?]
            rw [List.getElem?_set_ne hij]
            simpa [List.getD, List.get?_eq_getElem?] using hst
          · dsimp only
            simpa using hjlt
        | none =>
          rw [show phase1SStep ts st h = { st with
              added := st.added + 1
              created := st.created ++ [createEventTarget h]
              decisions := st.decisions ++ [DecisionS.create h] } from by
            simp only [phase1SStep, hL, hC]]
          exact ih (fun h' hm' => hall h' (List.mem_cons_of_mem _ hm')) _ hst hjlt

theorem phase1S_decisions_extend (ts : List TargetEvent) :
    ∀ (l : List SourceEvent) (st : Phase1SState),
      ∃ ds, (l.foldl (phase1SStep ts) st).decisions = st.decisions ++ ds := by
  intro l
  induction l with
  | nil => intro st; exact ⟨[], by simp⟩
  | cons h rest ih =>
    intro st
    rw [List.foldl_cons]
    obtain ⟨ds, hds⟩ := ih (phase1SStep ts st h)
    rw [hds]
    cases hL : lastIdx storedUIDS ts h.uid with
    | some i =>
      by_cases hn : needsUpdateS (st.arr.getD i dummyTarget) h
      · exact ⟨DecisionS.update i h :: ds, by
          simp only [phase1SStep, hL, if_pos hn]
          simp⟩
      · exact ⟨DecisionS.unchanged i h :: ds, by
          simp only [phase1SStep, hL, if_neg hn]
          simp⟩
    | none =>
      cases hC : lastIdx (fun t' => some (targetContentKey t')) ts (sourceContentKey h) with
      | some i =>
        exact ⟨DecisionS.migrate i h :: ds, by
          simp only [phase1SStep, hL, hC]
          simp⟩
      | none =>
        exact ⟨DecisionS.create h :: ds, by
          simp only [phase1SStep, hL, hC]
          simp⟩

theorem phase1S_no_create (ts : List TargetEvent) (h0 : SourceEvent) {j : Nat}
    (hcontent : lastIdx (fun t' => some (targetContentKey t')) ts (sourceContentKey h0) = some j) :
    ∀ (l : List SourceEvent) (st : Phase1SState),
      DecisionS.create h0 ∉ st.decisions →
      DecisionS.create h0 ∉ (l.foldl (phase1SStep ts) st).decisions := by
  intro l
  induction l with
  | nil => intro st hst; simpa using hst
  | cons h rest ih =>
    intro st hst
    rw [List.foldl_cons]
    apply ih
    cases hL : lastIdx storedUIDS ts h.uid with
    | some i =>
      by_cases hn : needsUpdateS (st.arr.getD i dummyTarget) h
      · rw [show phase1SStep ts st h = { st with
            arr := st.arr.set i (updateEventTarget h)
            updated := st.updated + 1
            decisions := st.decisions ++ [DecisionS.update i h] } from by
          simp only [phase1SStep, hL, if_pos hn]]
        dsimp only
        simp [hst]
      · rw [show phase1SStep ts st h = { st with
            unchanged := st.unchanged + 1
            decisions := st.decisions ++ [DecisionS.unchanged i h] } from by
          simp only [phase1SStep, hL, if_neg hn]]
        dsimp only
        simp [hst]
    | none =>
      cases hC : lastIdx (fun t' => some (targetContentKey t')) ts (sourceContentKey h) with
      | some i =>
        rw [show phase1SStep ts st h = { st with
            arr := st.arr.set i (updateEventTarget h)
            migrated := st.migrated + 1
            decisions := st.decisions ++ [DecisionS.migrate i h] } from by
          simp only [phase1SStep, hL, hC]]
        dsimp only
        simp [hst]
      | none =>
        have hne : h ≠ h0 := by
          intro he
          rw [he, hcontent] at hC
          cases hC
        rw [show phase1SStep ts st h = { st with
            added := st.added + 1
            created := st.created ++ [createEventTarget h]
            decisions := st.decisions ++ [DecisionS.create h] } from by
          simp only [phase1SStep, hL, hC]]
        dsimp only
        simp only [List.mem_append, List.mem_singleton]
        rintro (hin | hin)
        · exact hst hin
        · exact hne (by cases hin; rfl)

/-- C5 (amended): migration rescue in `processEventsWithStableUIDs`.  A
target event `t` (at position `j` of the snapshot) whose stored identity
matches no source uid, but whose content key equals that of a source event
`h0`, is classified migrate — the run emits the decision `migrate j h0`
(an update of `t`), emits no create for `h0`, and `t` survives deletion in
its updated form — provided the interference the counterexample exhibits is
absent: `t` is the target the content map resolves to (the last with that
key), no target stores `h0`'s identity, no other source event shares the
content key, and `h0` is the only source event with its uid. -/
theorem claimC5_migration_rescue (hs : List SourceEvent) (ts : List TargetEvent)
    (t : TargetEvent) (h0 : SourceEvent) (j : Nat)
    (htj : ts.getD j dummyTarget = t)
    (hid : ∀ h ∈ hs, storedUIDS t ≠ some h.uid)
    (hm0 : h0 ∈ hs)
    (hkey : sourceContentKey h0 = targetContentKey t)
    (hlast : lastIdx (fun t' => some (targetContentKey t')) ts (targetContentKey t) = some j)
    (hnoid : ∀ t' ∈ ts, storedUIDS t' ≠ some h0.uid)
    (huniqk : ∀ h ∈ hs, h ≠ h0 → sourceContentKey h ≠ targetContentKey t)
    (huniqu : ∀ h ∈ hs, h.uid = h0.uid → h = h0) :
    DecisionS.migrate j h0 ∈ (processEventsWithStableUIDs hs ts).2.2 ∧
    DecisionS.create h0 ∉ (processEventsWithStableUIDs hs ts).2.2 ∧
    updateEventTarget h0 ∈ (processEventsWithStableUIDs hs ts).2.1 := by
  have huidnone : lastIdx storedUIDS ts h0.uid = none :=
    (lastIdx_none storedUIDS).mpr hnoid
  have hcontent : lastIdx (fun t' => some (targetContentKey t')) ts (sourceContentKey h0)
      = some j := by rw [hkey]; exact hlast
  have hjlen : j < ts.length := (lastIdx_sound _ hlast).1
  obtain ⟨pre, post, hsplit⟩ := List.append_of_mem hm0
  have hpost_ok : ∀ h ∈ post, h = h0 ∨ (lastIdx storedUIDS ts h.uid ≠ some j ∧
      lastIdx (fun t' => some (targetContentKey t')) ts (sourceContentKey h) ≠ some j) := by
    intro h hm
    have hmhs : h ∈ hs := by
      rw [hsplit]
      exact List.mem_append_right _ (List.mem_cons_of_mem _ hm)
    by_cases he : h = h0
    · exact Or.inl he
    · refine Or.inr ⟨?_, ?_⟩
      · intro hL
        have := (lastIdx_sound storedUIDS hL).2
        rw [htj] at this
        exact hid h hmhs this
      · intro hC
        have := (lastIdx_sound (fun t' => some (targetContentKey t')) hC).2
        rw [htj] at this
        exact huniqk h hmhs he (Option.some.inj this).symm
  -- run phase 1 along the split
  have hfold : runPhase1S hs ts =
      post.foldl (phase1SStep ts)
        (phase1SStep ts (pre.foldl (phase1SStep ts)
          { arr := ts, added := 0, updated := 0, migrated := 0, unchanged := 0,
            created := [], decisions := [] }) h0) := by
    rw [runPhase1S, hsplit, List.foldl_append, List.foldl_cons]
  have hprelen : (pre.foldl (phase1SStep ts)
      { arr := ts, added := 0, updated := 0, migrated := 0, unchanged := 0,
        created := [], decisions := [] }).arr.length = ts.length :=
    phase1S_foldl_length ts pre _
  have hstep0 := phase1SStep_migrate huidnone hcontent
    (pre.foldl (phase1SStep ts)
      { arr := ts, added := 0, updated := 0, migrated := 0, unchanged := 0,
        created := [], decisions := [] })
  refine ⟨?_, ?_, ?_⟩
  · -- the migrate decision is emitted and retained
    rw [processEventsWithStableUIDs_def]
    dsimp only
    rw [hfold, hstep0]
    obtain ⟨ds, hds⟩ := phase1S_decisions_extend ts post _
    rw [hds]
    dsimp only
    simp
  · -- no create for h0
    rw [processEventsWithStableUIDs_def]
    dsimp only
    rw [hfold]
    apply phase1S_no_create ts h0 hcontent
    rw [hstep0]
    dsimp only
    -- create h0 not among pre's decisions either
    have hpre : DecisionS.create h0 ∉ (pre.foldl (phase1SStep ts)
        { arr := ts, added := 0, updated := 0, migrated := 0, unchanged := 0,
          created := [], decisions := [] }).decisions := by
      apply phase1S_no_create ts h0 hcontent
      simp
    simp only [List.mem_append, List.mem_singleton]
    rintro (hin | hin)
    · exact hpre hin
    · cases hin
  · -- the updated target survives
    have harrj : (runPhase1S hs ts).arr.getD j dummyTarget = updateEventTarget h0 := by
      rw [hfold, hstep0]
      apply phase1S_post_preserves ts h0 j huidnone hcontent post hpost_ok
      · dsimp only
        simp [List.getD, List.getElem?_set_self (hprelen ▸ hjlen)]
      · dsimp only
        simpa using hprelen ▸ hjlen
    have hlenS : (runPhase1S hs ts).arr.length = ts.length := phase1S_foldl_length ts hs _
    have hmemarr : updateEventTarget h0 ∈ (runPhase1S hs ts).arr := by
      rw [← harrj]
      exact getD_mem_of_lt (hlenS ▸ hjlen)
    have hnodel : deletableS hs (updateEventTarget h0) = false := by
      have hbyContent : (mapValues hs).any
          (fun h => sourceContentKey h = targetContentKey (updateEventTarget h0)) = true := by
        rw [List.any_eq_true]
        refine ⟨h0, mapValues_mem hm0 huniqu, ?_⟩
        rw [targetContentKey_updateEventTarget]
        simp
      simp only [deletableS, hbyContent]
      simp
    rw [processEventsWithStableUIDs_def]
    dsimp only
    rw [removePhaseS_eq]
    apply List.mem_append_left
    exact List.mem_filter.mpr ⟨hmemarr, by simp [hnodel]⟩

/-- C3 (amended): the stable-UID reconciler's delete phase removes a target
event only when its stored identity matches no source event's uid AND its
content key matches none of the uid-deduplicated source events (the values
of `hockeyEventMap`: one event per uid, last occurrence winning).  A stored
identity match, or a content match against a surviving map value, protects
the event from deletion. -/
theorem claimC3_removal_requires_no_match (hs : List SourceEvent)
    (arr : List TargetEvent) (t : TargetEvent) (hmem : t ∈ arr)
    (hgone : t ∉ (removePhaseS hs arr).1) :
    (∀ h ∈ hs, storedUIDS t ≠ some h.uid) ∧
    (∀ h ∈ mapValues hs, sourceContentKey h ≠ targetContentKey t) := by
  have hd : deletableS hs t = true := by
    cases hb : deletableS hs t with
    | true => rfl
    | false =>
      exfalso
      apply hgone
      rw [removePhaseS_eq]
      show t ∈ arr.filter fun t' => !deletableS hs t'
      refine List.mem_filter.mpr ⟨hmem, ?_⟩
      rw [hb]
      rfl
  simp only [deletableS, Bool.and_eq_true, Bool.not_eq_true'] at hd
  obtain ⟨hduid, hdcontent⟩ := hd
  constructor
  · intro h hm heq
    rw [heq] at hduid
    dsimp only at hduid
    rw [hasUID_of_mem hm] at hduid
    cases hduid
  · intro h hm heq
    rw [List.any_eq_false] at hdcontent
    have := hdcontent h hm
    simp [heq] at this

/-- The wrinkle in C3: `removePhaseS` appends nothing, so non-membership in
its survivor list is the right notion of deletion. -/
theorem removePhaseS_survivors_sub (hs : List SourceEvent) (l : List TargetEvent) :
    ∀ t ∈ (removePhaseS hs l).1, t ∈ l := by
  intro t ht
  rw [removePhaseS_eq] at ht
  exact List.mem_of_mem_filter ht

/-- C9 (amended): the marker round-trip.  For a source event whose
description does not contain the marker text and whose uid is nonempty and
whitespace-free (every `createStableUID` output is of this shape),
extracting a uid from the description `createEvent` builds returns exactly
the event's uid. -/
theorem claimC9_marker_roundtrip (h : SourceEvent)
    (hu1 : h.uid ≠ "") (hu2 : h.uid.data.all (fun c => !jsWS c) = true)
    (hno : hasSubstr markerC (h.description.getD "").data = false) :
    extractUID (appliedDescription h) = some h.uid := by
  have := storedUID_createEventTarget (h := h) ⟨hu1, hu2, hno⟩
  rw [storedUID] at this
  exact truthyUID_some this

/-! ## Concrete runs: counterexamples and witnesses -/

/-- C2 counterexample input: a source event whose feed description itself
contains the marker text. -/
def hX2 : SourceEvent :=
  { uid := "u1", title := "A", startTime := 0, endTime := none, location := none,
    description := some "Hockey-UID: evil" }

/-- C2 counterexample: idempotence fails as universally stated.  The created
event's description is `Hockey-UID: evil\n\nHockey-UID: u1`, extraction
returns `evil`, so the second run re-creates the event (`added = 1`) and
deletes the first copy (`removed = 1`) instead of reporting all-unchanged. -/
theorem claimC2_counterexample :
    (processEvents [hX2] (processEvents [hX2] []).2).1.added = 1 ∧
    (processEvents [hX2] (processEvents [hX2] []).2).1.removed = 1 := by
  refine ⟨?_, ?_⟩ <;> decide

/-- C3 counterexample inputs: two source events sharing a uid; the first
matches the target by content and carries a marker-polluted description. -/
def tX3 : TargetEvent :=
  { title := "[Hockey] A", startTime := 0, endTime := 7200000, location := "",
    description := "" }

def hX3a : SourceEvent :=
  { uid := "u", title := "A", startTime := 0, endTime := none, location := none,
    description := some "Hockey-UID: evil" }

def hX3b : SourceEvent :=
  { uid := "u", title := "B", startTime := 0, endTime := none, location := none,
    description := none }

/-- C3 counterexample: the delete-phase content rescue consults only the
uid-deduplicated map values.  `hX3a` is overwritten by `hX3b` in
`hockeyEventMap`, so although the (migrated) target's content key equals
`hX3a`'s — a content match against a source event — the event is deleted
(`removed = 1`, survivors contain only the event created for `hX3b`),
refuting "a match on either key against any source event protects the
target from deletion". -/
theorem claimC3_counterexample :
    sourceContentKey hX3a = targetContentKey tX3 ∧
    sourceContentKey hX3a = targetContentKey (updateEventTarget hX3a) ∧
    (processEventsWithStableUIDs [hX3a, hX3b] [tX3]).2.2
      = [DecisionS.migrate 0 hX3a, DecisionS.create hX3b] ∧
    (processEventsWithStableUIDs [hX3a, hX3b] [tX3]).1.removed = 1 ∧
    (processEventsWithStableUIDs [hX3a, hX3b] [tX3]).2.1 = [createEventTarget hX3b] := by
  refine ⟨?_, ?_, ?_, ?_, ?_⟩ <;> decide

/-- C5 counterexample inputs: two targets with the same content key and no
stored identity. -/
def tX5a : TargetEvent :=
  { title := "[Hockey] A", startTime := 0, endTime := 7200000, location := "",
    description := "" }

def tX5b : TargetEvent :=
  { title := "[Hockey] A", startTime := 0, endTime := 7200000, location := "",
    description := "x" }

def hX5 : SourceEvent :=
  { uid := "u", title := "A", startTime := 0, endTime := none, location := none,
    description := none }

/-- C5 counterexample: `tX5a` satisfies the claim's hypothesis — no stored
identity, content key equal to source event `hX5`'s — yet the run emits only
`migrate 1` (for `tX5b`, the last target with that key) and no update
request for `tX5a`, which survives untouched, refuting the claim for every
such target event. -/
theorem claimC5_counterexample :
    storedUIDS tX5a = none ∧
    sourceContentKey hX5 = targetContentKey tX5a ∧
    (processEventsWithStableUIDs [hX5] [tX5a, tX5b]).2.2 = [DecisionS.migrate 1 hX5] ∧
    (processEventsWithStableUIDs [hX5] [tX5a, tX5b]).2.1 = [tX5a, updateEventTarget hX5] := by
  refine ⟨?_, ?_, ?_, ?_⟩ <;> decide

/-- C6 counterexample inputs: one target matched by uid by one source event
and by content key by another. -/
def tX6 : TargetEvent :=
  { title := "[Hockey] A", startTime := 0, endTime := 7200000, location := "",
    description := "Hockey-UID: u1" }

def hX6a : SourceEvent :=
  { uid := "u1", title := "B", startTime := 0, endTime := none, location := none,
    description := none }

def hX6b : SourceEvent :=
  { uid := "u2", title := "A", startTime := 0, endTime := none, location := none,
    description := none }

/-- C6 counterexample: the single target event (index 0) is counted twice —
once as updated (uid match with `hX6a`) and once as migrated (content match
with `hX6b`) — refuting "every target event is counted in at most one
classification". -/
theorem claimC6_counterexample :
    (processEventsWithStableUIDs [hX6a, hX6b] [tX6]).2.2
      = [DecisionS.update 0 hX6a, DecisionS.migrate 0 hX6b] ∧
    (processEventsWithStableUIDs [hX6a, hX6b] [tX6]).1.updated = 1 ∧
    (processEventsWithStableUIDs [hX6a, hX6b] [tX6]).1.migrated = 1 := by
  refine ⟨?_, ?_, ?_⟩ <;> decide

/-- C9 counterexample input: a uid containing a space. -/
def hX9 : SourceEvent :=
  { uid := "a b", title := "X", startTime := 0, endTime := none, location := none,
    description := none }

/-- C9 counterexample: for a marker-free description but a uid containing
whitespace, the regex capture stops at the first whitespace character, so
extraction returns `a`, not the event's uid `a b`. -/
theorem claimC9_counterexample :
    hasSubstr markerC (hX9.description.getD "").data = false ∧
    extractUID (appliedDescription hX9) ≠ some hX9.uid := by
  refine ⟨?_, ?_⟩ <;> decide

/-- C2 witness input. -/
def hW2 : SourceEvent :=
  { uid := "benchapp-stable-7", title := "Practice", startTime := 100,
    endTime := none, location := some "Rink A", description := some "Bring gear" }

/-- C2 witness: the amended idempotence theorem at a concrete input. -/
theorem claimC2_witness :
    ((([hW2] : List SourceEvent).map SourceEvent.uid).Nodup ∧ ∀ h ∈ [hW2], WF h) ∧
    processEvents [hW2] (processEvents [hW2] []).2 =
      ({ added := 0, updated := 0, removed := 0, unchanged := 1 },
        (processEvents [hW2] []).2) :=
  ⟨⟨by decide, by decide⟩, processEvents_idempotent [hW2] [] (by decide) (by decide)⟩

/-- C3 witness input: a marked target with no matching source events. -/
def tW3 : TargetEvent :=
  { title := "[Hockey] Gone", startTime := 0, endTime := 7200000, location := "",
    description := "Hockey-UID: gone-1" }

/-- C3 witness: the amended deletion condition at a concrete input. -/
theorem claimC3_witness :
    (tW3 ∈ [tW3] ∧ tW3 ∉ (removePhaseS [] [tW3]).1) ∧
    ((∀ h ∈ ([] : List SourceEvent), storedUIDS tW3 ≠ some h.uid) ∧
      (∀ h ∈ mapValues [], sourceContentKey h ≠ targetContentKey tW3)) :=
  ⟨⟨by decide, by decide⟩,
    claimC3_removal_requires_no_match [] [tW3] tW3 (by decide) (by decide)⟩

/-- C4 witness inputs: same (title, startTime, location), different other
fields. -/
def eW4a : RawEvent :=
  { title := some "Game", startTime := some 12345, endTime := none,
    location := some "Rink B", description := some "x", originalUID := some "orig-1" }

def eW4b : RawEvent :=
  { title := some "Game", startTime := some 12345, endTime := some 999,
    location := some "Rink B", description := none, originalUID := some "other" }

/-- C4 witness: determinism of `createStableUID` at a concrete pair. -/
theorem claimC4_witness :
    (eW4a.title = eW4b.title ∧ eW4a.startTime = eW4b.startTime ∧
      eW4a.location = eW4b.location) ∧
    createStableUID eW4a = createStableUID eW4b :=
  ⟨⟨rfl, rfl, rfl⟩, claimC4_stableUID_deterministic eW4a eW4b rfl rfl rfl⟩

/-- C5 witness inputs: a target synced under an old identity scheme and the
same event with its stable uid. -/
def tW5 : TargetEvent :=
  { title := "[Hockey] A", startTime := 0, endTime := 7200000, location := "",
    description := "Hockey-UID: old-uid-123" }

def hW5 : SourceEvent :=
  { uid := "benchapp-stable-42", title := "A", startTime := 0,
    endTime := some 7200000, location := none, description := none }

/-- C5 witness: the migration-rescue theorem at a concrete input. -/
theorem claimC5_witness :
    (sourceContentKey hW5 = targetContentKey tW5 ∧ storedUIDS tW5 = some "old-uid-123") ∧
    (DecisionS.migrate 0 hW5 ∈ (processEventsWithStableUIDs [hW5] [tW5]).2.2 ∧
      DecisionS.create hW5 ∉ (processEventsWithStableUIDs [hW5] [tW5]).2.2 ∧
      updateEventTarget hW5 ∈ (processEventsWithStableUIDs [hW5] [tW5]).2.1) :=
  ⟨⟨by decide, by decide⟩,
    claimC5_migration_rescue [hW5] [tW5] tW5 hW5 0 (by decide) (by decide) (by decide)
      (by decide) (by decide) (by decide) (by decide) (by decide)⟩

/-- C7 witness inputs: otherwise-identical pairs with start-time differences
of exactly 300000 ms and 300001 ms. -/
def hW7 : SourceEvent :=
  { uid := "u", title := "A", startTime := 0, endTime := some 1000,
    location := none, description := none }

def tW7a : TargetEvent :=
  { title := "[Hockey] A", startTime := 300000, endTime := 1000, location := "",
    description := "" }

def tW7b : TargetEvent :=
  { title := "[Hockey] A", startTime := 300001, endTime := 1000, location := "",
    description := "" }

/-- C7 witness: at the boundary, 300000 ms is unchanged and 300001 ms is
changed. -/
theorem claimC7_witness :
    needsUpdate tW7a hW7 = false ∧ needsUpdate tW7b hW7 = true := by
  constructor
  · rw [claimC7_tolerance_boundary tW7a hW7 (by decide) (by decide) (by decide)]
    decide
  · rw [claimC7_tolerance_boundary tW7b hW7 (by decide) (by decide) (by decide)]
    decide

/-- C8 witness inputs: stored location `Rink A` versus feed location
`rink a`. -/
def hW8 : SourceEvent :=
  { uid := "benchapp-stable-9", title := "Practice", startTime := 50,
    endTime := some 7250, location := some "rink a", description := none }

def tW8 : TargetEvent :=
  { title := "[Hockey] Practice", startTime := 50, endTime := 7250,
    location := "Rink A", description := "Hockey-UID: benchapp-stable-9" }

/-- C8 witness: the case-insensitive location comparison at the spec's
`Rink A` / `rink a` example. -/
theorem claimC8_witness :
    jsTrim (jsLower tW8.location) = jsTrim (jsLower (hW8.location.getD "")) ∧
    (needsUpdate tW8 hW8 = false ∧
      processEvents [hW8] [tW8] =
        ({ added := 0, updated := 0, removed := 0, unchanged := 1 }, [tW8])) :=
  ⟨by decide,
    claimC8_location_case_insensitive tW8 hW8 (by decide) (by decide) (by decide)
      (by decide) (by decide) (by decide)⟩

/-- C9 witness input. -/
def hW9 : SourceEvent :=
  { uid := "benchapp-stable-77", title := "Game", startTime := 5, endTime := none,
    location := none, description := some "Visitors" }

/-- C9 witness: the marker round-trip at a concrete event. -/
theorem claimC9_witness :
    (hW9.uid ≠ "" ∧ hasSubstr markerC (hW9.description.getD "").data = false) ∧
    extractUID (appliedDescription hW9) = some hW9.uid :=
  ⟨⟨by decide, by decide⟩, claimC9_marker_roundtrip hW9 (by decide) (by decide) (by decide)⟩

/-- C10 witness input: an unmarked family event. -/
def tW10 : TargetEvent :=
  { title := "Family dinner", startTime := 0, endTime := 3600000,
    location := "Home", description := "no marker here" }

/-- C10 witness: an unmarked target survives a run with an empty source
list. -/
theorem claimC10_witness :
    (tW10 ∈ [tW10] ∧ extractUID tW10.description = none) ∧
    tW10 ∈ (processEvents [] [tW10]).2 :=
  ⟨⟨by decide, by decide⟩,
    claimC10_unmarked_survives [] [tW10] tW10 (by decide) (by decide)⟩

end HockeySync
